import Mathlib

/-!
Verification of the StarTable block-splitting and typed-decoding engine of the
pdtable repository.

The repository snapshot contains only documentation of the parsing core
(docs/usage/quickstart.rst, docs/usage/reading.rst, docs/usage/json.rst,
CHANGELOG.md); the Python modules implementing the core
(pdtable/io/parsers/blocks.py and friends) are not part of the snapshot.
Following the specification, the engine is therefore modelled here from the
spec: a cell grid is split into typed block spans, spans are gated by an
optional filter predicate, and table / directive / metadata spans are decoded
into structured, typed values, with a dual (strict / lenient) issue policy.
-/

namespace PdTable

/-! Basic character and string helpers.  All string manipulation is done on
the underlying character lists so that the definitions stay elementary. -/

/-- Whitespace test used for trimming. -/
def isWS (c : Char) : Bool := c = ' ' || c = '\t'

/-- Trim whitespace from both ends of a character list. -/
def trimList (cs : List Char) : List Char :=
  ((cs.dropWhile isWS).reverse.dropWhile isWS).reverse

/-- Trim whitespace from both ends of a string. -/
def strTrim (s : String) : String := ⟨trimList s.data⟩

/-- The text of a string up to (excluding) the first semicolon separator. -/
def takeUntilSemi (s : String) : String := ⟨s.data.takeWhile (fun c => c != ';')⟩

/-- Drop the first `k` characters of a string. -/
def strDropChars (k : Nat) (s : String) : String := ⟨s.data.drop k⟩

/-- Character-list based starts-with test. -/
def strStartsWith (p s : String) : Bool := p.data.isPrefixOf s.data

/-! Rows and grids.  A raw cell grid is a list of rows, each row a list of
string cells (docs/usage/json.rst: a sequence of sequences of cell values). -/

/-- A row of raw cells. -/
abbrev Row := List String

/-- A raw cell grid. -/
abbrev Grid := List Row

/-- The first cell of a row (empty string for an empty row). -/
def firstCell (r : Row) : String := r.headD ""

/-- A row is blank when every one of its cells is the empty string. -/
def isBlankRow (r : Row) : Bool := r.all (fun c => c = "")

/-- Modelled from the spec: block types emitted by the reader
(docs/usage/reading.rst lists DIRECTIVE, TABLE, TEMPLATE_ROW, METADATA, BLANK). -/
inductive BlockType where
  | METADATA
  | DIRECTIVE
  | TABLE
  | TEMPLATE_ROW
  | BLANK
deriving DecidableEq

/-- Classification of a single grid row, by its first cell (and, for blank
rows, the emptiness of all cells). -/
inductive RowKind where
  | table
  | directive
  | blank
  | plain
deriving DecidableEq

/-- Modelled from the spec: a row whose first cell begins with three stars
opens a DIRECTIVE span; two stars (not three) opens a TABLE span; a row whose
cells are all empty is blank; anything else is a plain continuation row
(spec 4.1, BlockSplitter; the splitter itself is not in the snapshot). -/
def rowKind (r : Row) : RowKind :=
  if strStartsWith "***" (firstCell r) then .directive
  else if strStartsWith "**" (firstCell r) then .table
  else if isBlankRow r then .blank
  else .plain

/-- Extract the block name from a marker cell: drop the `k` marker characters,
keep the text up to the first semicolon separator, and trim it (spec 4.1:
name = text after the marker up to a separator, trimmed). -/
def markerName (k : Nat) (cell : String) : String :=
  strTrim (takeUntilSemi (strDropChars k cell))

/-- Modelled from the spec: a classified block span, before full decode
(spec section 3: block type, name, start row, end row exclusive). -/
structure Span where
  btype : BlockType
  name : String
  start : Nat
  stop : Nat
deriving DecidableEq

/-! The block splitter is a row-by-row state machine (spec 4.1).  Its state
holds the finished spans (in reverse order), the currently open span, and
whether a marker row has been seen yet (rows before the first marker form the
metadata preamble). -/

/-- State of the block splitter. -/
structure SplitState where
  done : List Span
  cur : Option Span
  seenMarker : Bool
deriving DecidableEq

/-- Close the currently open span, if any, pushing it onto the finished list. -/
def pushCur (st : SplitState) : List Span :=
  match st.cur with
  | some sp => sp :: st.done
  | none => st.done

/-- Extend the currently open span by one row. -/
def extendSpan (sp : Span) : Span := { sp with stop := sp.stop + 1 }

/-- Open a fresh one-row span at row `i`. -/
def openSpan (bt : BlockType) (nm : String) (i : Nat) : Span :=
  ⟨bt, nm, i, i + 1⟩

/-- Modelled from the spec: one transition of the block splitter state machine
(spec 4.1).  Marker rows open TABLE / DIRECTIVE spans; before the first marker
every row extends the METADATA preamble; after it, blank rows form BLANK runs
and other non-marker rows either continue the open block or form template-row
spans. -/
def stepRow (i : Nat) (st : SplitState) (r : Row) : SplitState :=
  match rowKind r with
  | .directive =>
      ⟨pushCur st, some (openSpan .DIRECTIVE (markerName 3 (firstCell r)) i), true⟩
  | .table =>
      ⟨pushCur st, some (openSpan .TABLE (markerName 2 (firstCell r)) i), true⟩
  | k =>
      if st.seenMarker then
        match st.cur with
        | some sp =>
            if k = .blank then
              if sp.btype = .BLANK then ⟨st.done, some (extendSpan sp), true⟩
              else ⟨pushCur st, some (openSpan .BLANK "" i), true⟩
            else
              if sp.btype = .BLANK then
                ⟨pushCur st, some (openSpan .TEMPLATE_ROW "" i), true⟩
              else ⟨st.done, some (extendSpan sp), true⟩
        | none =>
            ⟨st.done,
             some (openSpan (if k = .blank then .BLANK else .TEMPLATE_ROW) "" i),
             true⟩
      else
        match st.cur with
        | some sp => ⟨st.done, some (extendSpan sp), false⟩
        | none => ⟨st.done, some (openSpan .METADATA "" i), false⟩

/-- Run the splitter over the remaining rows, `i` being the absolute index of
the next row. -/
def splitGo (i : Nat) (st : SplitState) : List Row → List Span
  | [] => (pushCur st).reverse
  | r :: rs => splitGo (i + 1) (stepRow i st r) rs

/-- Modelled from the spec: the BlockSplitter.  Classifies the rows of a grid
into non-overlapping, contiguous block spans (spec 4.1). -/
def splitBlocks (g : Grid) : List Span :=
  splitGo 0 ⟨[], none, false⟩ g

/-! Typed values.  The unit token of a column selects a coercer
(spec section 3, ColumnSchema): text gives strings, datetime a temporal
parse, onoff booleans, and every other token (including the dimensionless
unit) numbers.  Numbers are modelled as exact signed decimals
(sign, integer part, fraction digits), which is faithful to the decimal cell
grammar the reader accepts. -/

/-- Modelled from the spec: a decoded cell value (spec section 3). -/
inductive Value where
  | vText (s : String)
  | vNum (neg : Bool) (ip : Nat) (fr : List Nat)
  | vBool (b : Bool)
  | vTime (y mo dd h mi s : Nat)
  | vMissing
deriving DecidableEq

/-- The four coercer classes selected by a unit token. -/
inductive UnitClass where
  | text
  | datetime
  | onoff
  | num
deriving DecidableEq

/-- Modelled from the spec: unit token to coercer class (spec section 3). -/
def unitClass (u : String) : UnitClass :=
  if u = "text" then .text
  else if u = "datetime" then .datetime
  else if u = "onoff" then .onoff
  else .num

/-! Decimal digit utilities. -/

/-- Numeric value of a decimal digit character. -/
def digitVal? (c : Char) : Option Nat :=
  if c = '0' then some 0 else if c = '1' then some 1 else if c = '2' then some 2
  else if c = '3' then some 3 else if c = '4' then some 4 else if c = '5' then some 5
  else if c = '6' then some 6 else if c = '7' then some 7 else if c = '8' then some 8
  else if c = '9' then some 9 else none

/-- Character for a decimal digit. -/
def digitChar (d : Nat) : Char :=
  if d = 0 then '0' else if d = 1 then '1' else if d = 2 then '2'
  else if d = 3 then '3' else if d = 4 then '4' else if d = 5 then '5'
  else if d = 6 then '6' else if d = 7 then '7' else if d = 8 then '8'
  else '9'

/-- Greedily read leading digits off a character list. -/
def readDigits : List Char → List Nat × List Char
  | [] => ([], [])
  | c :: cs =>
    match digitVal? c with
    | some d => ((d :: (readDigits cs).1), (readDigits cs).2)
    | none => ([], c :: cs)

/-- Value of a most-significant-first digit list. -/
def natFromDigits (ds : List Nat) : Nat := Nat.ofDigits 10 ds.reverse

/-- Little-endian base-10 digits, driven by explicit fuel so that the
definition is structurally recursive. -/
def digitsFuel : Nat → Nat → List Nat
  | 0, _ => []
  | fuel + 1, n => if n = 0 then [] else n % 10 :: digitsFuel fuel (n / 10)

/-- Most-significant-first digit list of a natural number (never empty). -/
def digitsMSF (n : Nat) : List Nat :=
  if n = 0 then [0] else (digitsFuel n n).reverse

/-- Digit list of `n`, left-padded with zeros to width `w`. -/
def padDigits (w n : Nat) : List Nat :=
  List.replicate (w - (digitsMSF n).length) 0 ++ digitsMSF n

/-- Strip trailing zero digits off a fraction digit list. -/
def stripZeros (ds : List Nat) : List Nat :=
  (ds.reverse.dropWhile (fun d => d == 0)).reverse

/-- Read one non-empty digit field and the expected separator after it. -/
def expectSep (c : Char) (p : List Nat × List Char) :
    Option (List Nat × List Char) :=
  if p.1 = [] then none
  else if p.2.head? = some c then some (p.1, p.2.tail) else none

/-- Core decimal parser: optional minus sign, integer digits, optional dot
and fraction digits; fraction trailing zeros are normalized away. -/
def parseDecCore (cs : List Char) : Option (Bool × Nat × List Nat) :=
  let neg : Bool := cs.head? = some '-'
  let p := readDigits (if neg then cs.tail else cs)
  if p.1 = [] then none
  else if p.2 = [] then some (neg, natFromDigits p.1, [])
  else
    match expectSep '.' p with
    | none => none
    | some (ipds, t) =>
      match readDigits t with
      | (frds, []) =>
        if frds = [] then none
        else some (neg, natFromDigits ipds, stripZeros frds)
      | _ => none

/-- Numeric coercer: parse a cell as a signed decimal, normalizing negative
zero to plain zero. -/
def parseNum (s : String) : Option Value :=
  match parseDecCore s.data with
  | none => none
  | some (neg, ip, fr) => some (.vNum (neg && !(ip == 0 && fr.isEmpty)) ip fr)

/-- Temporal coercer: parse a cell of the form YYYY-MM-DD HH:MM:SS. -/
def parseTime (cs : List Char) : Option Value :=
  match expectSep '-' (readDigits cs) with
  | none => none
  | some (dy, r1) =>
    match expectSep '-' (readDigits r1) with
    | none => none
    | some (dmo, r2) =>
      match expectSep ' ' (readDigits r2) with
      | none => none
      | some (ddd, r3) =>
        match expectSep ':' (readDigits r3) with
        | none => none
        | some (dh, r4) =>
          match expectSep ':' (readDigits r4) with
          | none => none
          | some (dmi, r5) =>
            match readDigits r5 with
            | (ds, []) =>
              if ds = [] then none
              else
                some (.vTime (natFromDigits dy) (natFromDigits dmo)
                  (natFromDigits ddd) (natFromDigits dh) (natFromDigits dmi)
                  (natFromDigits ds))
            | _ => none

/-- A cell spelling the missing value (dash, empty, or a NaN spelling). -/
def isMissingCell (c : String) : Bool :=
  c = "-" || c = "" || c = "nan" || c = "NaN"

/-- Modelled from the spec: per-cell coercion by unit class (spec section 3 and
4.3).  Returns none exactly when the cell is unparseable under the declared
unit, which the lenient decoder records as a CoercionError. -/
def coerce (u c : String) : Option Value :=
  match unitClass u with
  | .text => some (.vText c)
  | .onoff =>
    if c = "0" ∨ c = "false" then some (.vBool false)
    else if c = "1" ∨ c = "true" then some (.vBool true)
    else if isMissingCell c then some .vMissing
    else none
  | .num => if isMissingCell c then some .vMissing else parseNum c
  | .datetime => if isMissingCell c then some .vMissing else parseTime c.data

/-- Lenient per-cell coercion: failures become the missing-value sentinel
(spec 4.3). -/
def coerceCell (u c : String) : Value := (coerce u c).getD .vMissing

/-! Rendering values back to cells (used by the writer when a table is
encoded back to the source cell-grid format). -/

/-- Render a natural number in decimal (most significant digit first). -/
def renderNat (n : Nat) : List Char := (digitsMSF n).map digitChar

/-- Render a natural number left-padded with zeros to width `w`. -/
def renderPad (w n : Nat) : List Char := (padDigits w n).map digitChar

/-- Modelled from the spec: render a decoded value back to a raw cell
(writer side of the round-trip property, spec section 8). -/
def renderValue (v : Value) : String :=
  match v with
  | .vText s => s
  | .vBool b => if b then "1" else "0"
  | .vMissing => "-"
  | .vNum neg ip fr =>
    ⟨(if neg then ['-'] else []) ++ renderNat ip ++
      '.' :: (if fr.isEmpty then ['0'] else fr.map digitChar)⟩
  | .vTime y mo dd h mi s =>
    ⟨renderPad 4 y ++ '-' :: renderPad 2 mo ++ '-' :: renderPad 2 dd ++
      ' ' :: renderPad 2 h ++ ':' :: renderPad 2 mi ++ ':' :: renderPad 2 s⟩

/-! The decoded data model (spec section 3). -/

/-- Issue severity classes (spec section 7). -/
inductive IssueKind where
  | StructuralError
  | CoercionError
  | ValidationError
deriving DecidableEq

/-- Modelled from the spec: an Issue carries the block name, the absolute row
index, the column index when applicable, a severity class and a message
(spec sections 3 and 7). -/
structure Issue where
  kind : IssueKind
  blockName : String
  row : Nat
  col : Option Nat
  msg : String
deriving DecidableEq

/-- Modelled from the spec: per-column schema, name and unit (spec section 3). -/
structure ColumnSchema where
  name : String
  unit : String
deriving DecidableEq

/-- Modelled from the spec: the decoded table value object (spec section 3):
name, destinations, transposition flag, and ordered columns, each a schema
paired with its value sequence. -/
structure TypedTable where
  name : String
  destinations : List String
  transposed : Bool
  columns : List (ColumnSchema × List Value)
deriving DecidableEq

/-- Modelled from the spec: a decoded directive block (spec sections 3, 4.4). -/
structure Directive where
  name : String
  lines : List String
deriving DecidableEq

/-- A decoded metadata block: an ordered key-value mapping (spec 4.5). -/
abbrev MetadataBlock := List (String × String)

/-- Modelled from the spec: the per-block payload emitted by the stream. -/
inductive Block where
  | metadata (m : MetadataBlock)
  | directive (d : Directive)
  | table (t : TypedTable)
deriving DecidableEq

/-! Destinations (spec 4.3): the cells after the name cell on the name row
list the destinations, space-separated tokens being split apart; they are
deduplicated and default to the single destination "all" when omitted. -/

/-- Split a character list on spaces (auxiliary accumulator version). -/
def splitSp : List Char → List Char → List (List Char)
  | [], acc => [acc.reverse]
  | c :: cs, acc =>
    if c = ' ' then acc.reverse :: splitSp cs [] else splitSp cs (c :: acc)

/-- Split a string on spaces, discarding empty pieces. -/
def splitSpaces (s : String) : List String :=
  ((splitSp s.data []).map (fun l => (⟨l⟩ : String))).filter (fun p => p ≠ "")

/-- Deduplicate, keeping the first occurrence of each element;
`seen` accumulates the elements already kept. -/
def dedupAcc : List String → List String → List String
  | [], _ => []
  | x :: xs, seen =>
    if x ∈ seen then dedupAcc xs seen else x :: dedupAcc xs (x :: seen)

/-- Modelled from the spec: decode the destination cells of a table name row;
deduplicated, defaulting to "all" when none are listed (spec 4.3 and
section 3 invariants). -/
def parseDestinations (cells : List String) : List String :=
  let raw := cells.flatMap splitSpaces
  if raw = [] then ["all"] else dedupAcc raw []

/-- Split a trailing transposition star off a table name
(spec 4.3: the transposed layout is flagged on the name row). -/
def stripStar (s : String) : String × Bool :=
  if s.data.getLast? = some '*' then (⟨s.data.dropLast⟩, true) else (s, false)

/-! The table block decoder (spec 4.3). -/

/-- Transpose a rectangular list of rows of width `k` into `k` columns. -/
def colwise (k : Nat) : List (List String) → List (List String)
  | [] => List.replicate k []
  | r :: rs => List.zipWith List.cons r (colwise k rs)

/-- Transpose `cols` columns, each of height `n`, into `n` rows. -/
def rowwise (n : Nat) (cols : List (List String)) : List (List String) :=
  cols.foldr (fun c acc => List.zipWith List.cons c acc) (List.replicate n [])

/-- Decode one column from its raw cells, leniently. -/
def mkColumn (nm u : String) (cells : List String) : ColumnSchema × List Value :=
  (⟨nm, u⟩, cells.map (coerceCell u))

/-- CoercionError issues of one decoded column of a row-oriented table;
`j` is the column index, data rows start at absolute row `start + 3`. -/
def colIssues (tname : String) (start j : Nat) (u : String)
    (cells : List String) : List Issue :=
  cells.enum.filterMap fun p =>
    if (coerce u p.2).isSome then none
    else some ⟨.CoercionError, tname, start + 3 + p.1, some j,
      "cell does not parse under unit " ++ u⟩

/-- CoercionError issues of one decoded column of a transposed table;
`j` is the column index (its physical row is `start + 1 + j`). -/
def colIssuesT (tname : String) (start j : Nat) (u : String)
    (cells : List String) : List Issue :=
  cells.enum.filterMap fun p =>
    if (coerce u p.2).isSome then none
    else some ⟨.CoercionError, tname, start + 1 + j, some (2 + p.1),
      "cell does not parse under unit " ++ u⟩

/-- Modelled from the spec: decode the body of a row-oriented table span:
header row, unit row, then data rows (spec 4.3).  Length mismatches are
StructuralErrors that abandon the block; duplicate or empty column names are
ValidationErrors; cell coercion failures are per-cell CoercionErrors with the
missing-value sentinel substituted. -/
def decodeRowBody (tname : String) (dests : List String) (h u : List String)
    (data : List (List String)) (start : Nat) :
    Option TypedTable × List Issue :=
  if u.length ≠ h.length then
    (none, [⟨.StructuralError, tname, start + 2, none,
      "unit row length differs from header row length"⟩])
  else
    match data.findIdx? (fun r => r.length != h.length) with
    | some i =>
      (none, [⟨.StructuralError, tname, start + 3 + i, none,
        "data row length differs from header row length"⟩])
    | none =>
      if h.any (fun c => c = "") then
        (none, [⟨.ValidationError, tname, start + 1, none, "empty column name"⟩])
      else if h.Nodup then
        let cols := (h.zip u).zip (colwise h.length data)
        (some ⟨tname, dests, false, cols.map fun p => mkColumn p.1.1 p.1.2 p.2⟩,
         cols.enum.flatMap fun q => colIssues tname start q.1 q.2.1.2 q.2.2)
      else
        (none, [⟨.ValidationError, tname, start + 1, none,
          "duplicate column name"⟩])

/-- Modelled from the spec: decode the body of a transposed table span, one
physical row per column, laid out as name, unit, then values (spec 4.3). -/
def decodeTransposedBody (tname : String) (dests : List String)
    (body : List Row) (start : Nat) : Option TypedTable × List Issue :=
  match body.findIdx? (fun r => decide (r.length < 2)) with
  | some i =>
    (none, [⟨.StructuralError, tname, start + 1 + i, none,
      "transposed column row lacks name or unit cell"⟩])
  | none =>
    match body.findIdx? (fun r => r.length != (body.headD []).length) with
    | some i =>
      (none, [⟨.StructuralError, tname, start + 1 + i, none,
        "transposed column rows have differing lengths"⟩])
    | none =>
      if body.any (fun r => r.headD "" = "") then
        (none, [⟨.ValidationError, tname, start + 1, none, "empty column name"⟩])
      else if (body.map (fun r => r.headD "")).Nodup then
        (some ⟨tname, dests, true,
           body.map fun r => mkColumn (r.headD "") (r.getD 1 "") (r.drop 2)⟩,
         body.enum.flatMap fun q => colIssuesT tname start q.1 (q.2.getD 1 "") (q.2.drop 2))
      else
        (none, [⟨.ValidationError, tname, start + 1, none,
          "duplicate column name"⟩])

/-- Modelled from the spec: the TableBlockDecoder (spec 4.3).  `spanName` is
the name the splitter extracted from the marker cell; a trailing star flags
the transposed layout.  The name row's remaining cells carry the
destinations.  A name-only span yields a table with no columns; header and
unit rows with no data rows yield declared columns with empty value
sequences; a header row without a unit row is a StructuralError. -/
def decodeTable (spanName : String) (rows : List Row) (start : Nat) :
    Option TypedTable × List Issue :=
  if (stripStar spanName).2 then
    decodeTransposedBody (stripStar spanName).1
      (parseDestinations (rows.headD []).tail) rows.tail start
  else
    match rows.tail with
    | [] =>
      (some ⟨(stripStar spanName).1,
        parseDestinations (rows.headD []).tail, false, []⟩, [])
    | [_] =>
      (none, [⟨.StructuralError, (stripStar spanName).1, start + 1, none,
        "header row without unit row"⟩])
    | h :: u :: data =>
      decodeRowBody (stripStar spanName).1
        (parseDestinations (rows.headD []).tail) h u data start

/-- Modelled from the spec: the DirectiveDecoder (spec 4.4): every row after
the marker row contributes its first cell as one line; a non-blank trailing
cell is a ValidationError issue. -/
def decodeDirective (spanName : String) (rows : List Row) (start : Nat) :
    Directive × List Issue :=
  (⟨spanName, rows.tail.map firstCell⟩,
   rows.tail.enum.filterMap fun p =>
     if p.2.tail.all (fun c => c = "") then none
     else some ⟨.ValidationError, spanName, start + 1 + p.1, none,
       "directive line has non-blank trailing cells"⟩)

/-- Decode one preamble row into a key-value pair: the first cell is split on
its first colon; the remaining text and the remaining cells form the value. -/
def metaRowKV (r : Row) : Option (String × String) :=
  let c0 := firstCell r
  if (':' ∈ c0.data) then
    some (strTrim ⟨c0.data.takeWhile (fun c => c != ':')⟩,
      strTrim (String.join ((⟨((c0.data.dropWhile (fun c => c != ':')).drop 1)⟩ : String) :: r.tail)))
  else none

/-- Modelled from the spec: the MetadataBlockDecoder (spec 4.5): each preamble
row is split on its first colon into key and value; blank rows are skipped;
lines without a colon produce a non-fatal ValidationError issue. -/
def decodeMetadata (rows : List Row) (start : Nat) :
    MetadataBlock × List Issue :=
  (rows.filterMap fun r => if isBlankRow r then none else metaRowKV r,
   rows.enum.filterMap fun p =>
     if isBlankRow p.2 then none
     else if (metaRowKV p.2).isSome then none
     else some ⟨.ValidationError, "", start + p.1, none,
       "metadata line has no colon"⟩)

/-! The block stream (spec 4.6): splitter, filter gate, per-type decoders. -/

/-- The rows a span covers. -/
def spanRows (g : Grid) (sp : Span) : List Row :=
  (g.drop sp.start).take (sp.stop - sp.start)

/-- Modelled from the spec: dispatch a classified span to its decoder
(spec 4.6).  BLANK and TEMPLATE_ROW spans are read but not parsed
(docs/usage/reading.rst). -/
def decodeSpan (g : Grid) (sp : Span) : Option (BlockType × Block) × List Issue :=
  match sp.btype with
  | .METADATA =>
    (some (.METADATA, .metadata (decodeMetadata (spanRows g sp) sp.start).1),
     (decodeMetadata (spanRows g sp) sp.start).2)
  | .DIRECTIVE =>
    (some (.DIRECTIVE, .directive (decodeDirective sp.name (spanRows g sp) sp.start).1),
     (decodeDirective sp.name (spanRows g sp) sp.start).2)
  | .TABLE =>
    ((decodeTable sp.name (spanRows g sp) sp.start).1.map fun t => (.TABLE, .table t),
     (decodeTable sp.name (spanRows g sp) sp.start).2)
  | _ => (none, [])

/-- Block types that reach the filter gate and can be emitted. -/
def emittable (bt : BlockType) : Bool :=
  match bt with
  | .METADATA | .DIRECTIVE | .TABLE => true
  | _ => false

/-- A block filter predicate: block type and block name to keep-or-skip
(docs/usage/reading.rst, Filtered reading). -/
abbrev BlockFilter := BlockType → String → Bool

/-- Whether the filter gate lets a span through to full decode. -/
def keepSpan (P : BlockFilter) (sp : Span) : Bool :=
  emittable sp.btype && P sp.btype sp.name

/-- Modelled from the spec: the blocks of a lenient parse run: every span the
filter keeps is fully decoded, and the fully-decoded blocks are emitted in
span order (spec 4.2, 4.6). -/
def parseBlocks (P : BlockFilter) (g : Grid) : List (BlockType × Block) :=
  (splitBlocks g).flatMap fun sp =>
    if keepSpan P sp then (decodeSpan g sp).1.toList else []

/-- Modelled from the spec: the issues of a lenient parse run, collected in
span order (spec 4.6, 7). -/
def parseIssues (P : BlockFilter) (g : Grid) : List Issue :=
  (splitBlocks g).flatMap fun sp =>
    if keepSpan P sp then (decodeSpan g sp).2 else []

/-- Modelled from the spec: a full lenient parse run: emitted blocks plus the
session-scoped issue list (spec 4.6: lenient mode collects issues, abandons
only the offending block, and continues). -/
def readGridLenient (P : BlockFilter) (g : Grid) :
    List (BlockType × Block) × List Issue :=
  (parseBlocks P g, parseIssues P g)

/-- Outcome of a strict parse run: either the full block list, or the first
Issue, which terminates the stream. -/
inductive StrictResult where
  | ok (blocks : List (BlockType × Block))
  | fail (e : Issue)
deriving DecidableEq

/-- Strict-mode driver over the span list: the first issue raised anywhere
terminates the stream with that issue. -/
def strictGo (g : Grid) (P : BlockFilter) : List Span → StrictResult
  | [] => .ok []
  | sp :: rest =>
    if keepSpan P sp then
      match decodeSpan g sp with
      | (ob, []) =>
        match strictGo g P rest with
        | .ok bs => .ok (ob.toList ++ bs)
        | .fail e => .fail e
      | (_, e :: _) => .fail e
    else strictGo g P rest

/-- Modelled from the spec: a strict parse run (spec 4.6, 7: strict mode
surfaces the first Issue as a terminating failure of the stream). -/
def readGridStrict (P : BlockFilter) (g : Grid) : StrictResult :=
  strictGo g P (splitBlocks g)

/-- The trivial filter that keeps everything (unfiltered reading). -/
def noFilter : BlockFilter := fun _ _ => true

/-! JSON precursor output shape (docs/usage/json.rst, spec 4.3 and section 6:
TABLE becomes an object with name, destinations and columns; each column an
object with unit and values; destinations an object mapping each destination
name to null; temporal values become strings). -/

/-- A JSON-ready value tree. -/
inductive Json where
  | jnull
  | jbool (b : Bool)
  | jnum (neg : Bool) (ip : Nat) (fr : List Nat)
  | jstr (s : String)
  | jarr (elems : List Json)
  | jobj (fields : List (String × Json))

/-- Modelled from the spec: normalize one decoded value to a JSON-native form
(spec 4.3: ISO-8601-style strings for temporal values, null for missing,
native booleans; docs/usage/json.rst shows the temporal rendering
"2020-08-04 08:00:00", with a space separator). -/
def valueToJson (v : Value) : Json :=
  match v with
  | .vText s => .jstr s
  | .vBool b => .jbool b
  | .vNum neg ip fr => .jnum neg ip fr
  | .vTime y mo dd h mi s => .jstr (renderValue (.vTime y mo dd h mi s))
  | .vMissing => .jnull

/-- Modelled from the spec: the JSON precursor of a decoded table
(docs/usage/json.rst: an object with name, destinations and columns, the
destinations being an object that maps each destination name to null). -/
def tableToJsonData (t : TypedTable) : Json :=
  .jobj [("name", .jstr t.name),
    ("destinations", .jobj (t.destinations.map fun d => (d, .jnull))),
    ("columns", .jobj (t.columns.map fun c =>
      (c.1.name, .jobj [("unit", .jstr c.1.unit),
        ("values", .jarr (c.2.map valueToJson))])))]

/-- Look a field up in a JSON object node. -/
def jsonField (k : String) (j : Json) : Option Json :=
  match j with
  | .jobj fields => (fields.lookup k)
  | _ => none

/-! Claims.  Each claim of the frozen claim list is settled by exactly one
theorem below. -/

/-- C5: a table span consisting of only a name row decodes to a table with
that name, destinations all, zero columns and zero rows, with no Issue; and a
span with header and unit rows but zero data rows decodes to the declared
columns each holding an empty value sequence, with no Issue. -/
theorem c5_empty_tables :
    readGridLenient noFilter [["**places;"]] =
      ([(.TABLE, .table ⟨"places", ["all"], false, []⟩)], []) ∧
    readGridLenient noFilter
        [["**places;"], ["place", "distance"], ["text", "km"]] =
      ([(.TABLE, .table ⟨"places", ["all"], false,
          [(⟨"place", "text"⟩, []), (⟨"distance", "km"⟩, [])]⟩)], []) := by
  decide

/-- C9: the grid with name row cells "**places;" and "all", header row
"place", "distance", unit row "text", "km" and data row "home", "0.0"
decodes to a table named places with destinations all and two columns:
place (text) holding the string home, and distance (km) holding the
number 0.0, with no Issue. -/
theorem c9_places_scenario :
    readGridLenient noFilter
        [["**places;", "all"], ["place", "distance"], ["text", "km"],
         ["home", "0.0"]] =
      ([(.TABLE, .table ⟨"places", ["all"], false,
          [(⟨"place", "text"⟩, [.vText "home"]),
           (⟨"distance", "km"⟩, [.vNum false 0 []])]⟩)], []) := by
  decide

/-- C10: for every table, the destinations field of the JSON precursor is an
object mapping each destination name to null (not a list of strings); and in
an end-to-end run with a datetime column, the emitted precursor carries the
temporal value as the string 2020-08-04 08:00:00, with a space separator. -/
theorem c10_jsondata_shape :
    (∀ t : TypedTable,
      jsonField "destinations" (tableToJsonData t) =
        some (.jobj (t.destinations.map fun d => (d, .jnull)))) ∧
    ((readGridLenient noFilter
        [["**places;", "all"], ["place", "ETA"], ["text", "datetime"],
         ["home", "2020-08-04 08:00:00"]]).1.map fun b =>
          match b.2 with
          | .table t => some (tableToJsonData t)
          | _ => none) =
      [some (.jobj [("name", .jstr "places"),
        ("destinations", .jobj [("all", .jnull)]),
        ("columns", .jobj
          [("place", .jobj [("unit", .jstr "text"),
            ("values", .jarr [.jstr "home"])]),
           ("ETA", .jobj [("unit", .jstr "datetime"),
            ("values", .jarr [.jstr "2020-08-04 08:00:00"])])])])] :=
  ⟨fun _ => rfl, rfl⟩

/-! C6 concerns the order of decoded destinations.  The model above follows
the spec text and keeps first-occurrence order; the repository's own
documentation, however, records the program rendering the farm_animals
destinations in a different order than listed, because the implementation
stores destinations in an unordered set. -/

/-- The destinations cell of the farm_animals table in the quickstart demo
input (src/docs/usage/quickstart.rst, the farm_animals block). -/
def farmAnimalsDestCell : String := "your_farm my_farm other_farm"

/-- The destination order in the program's own rendering of that table
(src/docs/usage/quickstart.rst, filtered-reading output, and the write_csv
output my_farm your_farm other_farm). -/
def farmAnimalsDestRendered : List String := ["my_farm", "your_farm", "other_farm"]

/-- C6 counterexample: the destinations order the program is documented to
produce for farm_animals differs from the original listed order, although it
is a permutation of it — the implementation keeps a set of unique
destinations, not their listing order. -/
theorem c6_order_counterexample :
    parseDestinations [farmAnimalsDestCell] ≠ farmAnimalsDestRendered ∧
    farmAnimalsDestRendered.Perm (parseDestinations [farmAnimalsDestCell]) := by
  constructor
  · decide
  · decide

/-- Membership in the deduplication accumulator. -/
theorem mem_dedupAcc (x : String) :
    ∀ (l seen : List String), x ∈ dedupAcc l seen ↔ (x ∈ l ∧ x ∉ seen) := by
  intro l
  induction l with
  | nil => intro seen; simp [dedupAcc]
  | cons a l ih =>
    intro seen
    unfold dedupAcc
    by_cases h : a ∈ seen
    · rw [if_pos h, ih]
      constructor
      · exact fun hx => ⟨List.mem_cons_of_mem _ hx.1, hx.2⟩
      · rintro ⟨hx, hs⟩
        rcases List.mem_cons.1 hx with rfl | hx2
        · exact absurd h hs
        · exact ⟨hx2, hs⟩
    · rw [if_neg h]
      constructor
      · intro hx
        rcases List.mem_cons.1 hx with rfl | hx2
        · exact ⟨List.mem_cons_self _ _, h⟩
        · rcases (ih _).1 hx2 with ⟨h1, h2⟩
          exact ⟨List.mem_cons_of_mem _ h1,
            fun hc => h2 (List.mem_cons_of_mem _ hc)⟩
      · rintro ⟨hx, hs⟩
        rcases List.mem_cons.1 hx with rfl | hx2
        · exact List.mem_cons_self _ _
        · by_cases hxa : x = a
          · exact hxa ▸ List.mem_cons_self _ _
          · exact List.mem_cons_of_mem _
              ((ih _).2 ⟨hx2, fun hc => (List.mem_cons.1 hc).elim hxa hs⟩)

/-- The deduplication accumulator produces a duplicate-free list. -/
theorem nodup_dedupAcc : ∀ (l seen : List String), (dedupAcc l seen).Nodup := by
  intro l
  induction l with
  | nil => intro seen; simp [dedupAcc]
  | cons a l ih =>
    intro seen
    unfold dedupAcc
    by_cases h : a ∈ seen
    · rw [if_pos h]; exact ih seen
    · rw [if_neg h]
      refine List.nodup_cons.2 ⟨?_, ih (a :: seen)⟩
      intro hmem
      exact ((mem_dedupAcc a l (a :: seen)).1 hmem).2 (List.mem_cons_self a seen)

/-- C6 amended: the decoded destinations are a duplicate-free list containing
exactly the listed destination tokens (defaulting to all when none are
listed); the original listing order is not preserved in general. -/
theorem c6_destinations_dedup (cells : List String) :
    (parseDestinations cells).Nodup ∧
    (∀ s, s ∈ parseDestinations cells ↔
      (s ∈ cells.flatMap splitSpaces ∨
       (cells.flatMap splitSpaces = [] ∧ s = "all"))) := by
  have hsplit : parseDestinations cells =
      if cells.flatMap splitSpaces = [] then ["all"]
      else dedupAcc (cells.flatMap splitSpaces) [] := rfl
  by_cases h : cells.flatMap splitSpaces = []
  · rw [hsplit, if_pos h]
    simp [h]
  · rw [hsplit, if_neg h]
    refine ⟨nodup_dedupAcc _ _, fun s => ?_⟩
    rw [mem_dedupAcc]
    simp [h]

/-! C3: the dual issue policy. -/

/-- The strict driver agrees with the lenient run: it fails with the head of
the lenient issue list when that list is non-empty, and otherwise returns
exactly the lenient blocks. -/
theorem strictGo_eq_lenient (g : Grid) (P : BlockFilter) :
    ∀ l : List Span,
      strictGo g P l =
        match l.flatMap (fun sp =>
            if keepSpan P sp then (decodeSpan g sp).2 else []) with
        | [] => .ok (l.flatMap fun sp =>
            if keepSpan P sp then (decodeSpan g sp).1.toList else [])
        | e :: _ => .fail e := by
  intro l
  induction l with
  | nil => rfl
  | cons sp rest ih =>
    by_cases hk : keepSpan P sp = true
    · rcases hdec : decodeSpan g sp with ⟨ob, is⟩
      cases is with
      | nil =>
        simp only [strictGo, hk, if_true, hdec, List.flatMap_cons, ih,
          List.nil_append]
        cases hrest : rest.flatMap (fun sp =>
            if keepSpan P sp then (decodeSpan g sp).2 else []) <;> simp
      | cons e tl =>
        simp [strictGo, hk, hdec]
    · simp only [strictGo, Bool.not_eq_true] at hk
      simp [strictGo, hk, ih]

/-- The malformed-then-valid scenario grid: table bad has a unit row one cell
shorter than its header row; table good is valid. -/
def c3BadGrid : Grid :=
  [["**bad;"], ["a", "b"], ["u"], ["**good;"], ["x"], ["-"], ["7.5"]]

/-- The StructuralError issue the bad table raises. -/
def c3BadIssue : Issue :=
  ⟨.StructuralError, "bad", 2, none,
    "unit row length differs from header row length"⟩

/-- C3: strict mode terminates the stream with the first Issue raised; in
lenient mode (the model of the default) every Issue is collected and the
stream continues, only the offending block being absent.  Concretely, for a
table whose unit row is one cell shorter than its header row followed by a
valid table: the lenient run emits only the valid table and collects exactly
the StructuralError referencing the bad table, while the strict run fails
with that same Issue. -/
theorem c3_issue_policy :
    (∀ (P : BlockFilter) (g : Grid),
      readGridStrict P g =
        match parseIssues P g with
        | [] => .ok (parseBlocks P g)
        | e :: _ => .fail e) ∧
    readGridLenient noFilter c3BadGrid =
      ([(.TABLE, .table ⟨"good", ["all"], false,
          [(⟨"x", "-"⟩, [.vNum false 7 [5]])]⟩)], [c3BadIssue]) ∧
    readGridStrict noFilter c3BadGrid = .fail c3BadIssue := by
  refine ⟨fun P g => strictGo_eq_lenient g P (splitBlocks g), ?_, ?_⟩
  · decide
  · decide

/-! C1: filtering equivalence.  The name a span (and hence the filter) sees is
recovered from a fully decoded block: the directive name, the table name with
its transposition star re-attached, or the empty name of the metadata
preamble. -/

/-- The span name a decoded block corresponds to. -/
def blockSpanName : Block → String
  | .metadata _ => ""
  | .directive d => d.name
  | .table t => t.name ++ (if t.transposed then "*" else "")

/-- The spans a parse run with filter `P` classifies, alongside its decoded
blocks and issues (the span list does not depend on the filter). -/
def parseRun (P : BlockFilter) (g : Grid) :
    List Span × List (BlockType × Block) × List Issue :=
  (splitBlocks g, parseBlocks P g, parseIssues P g)

/-- Rebuild a string from its character list. -/
theorem strMk_eq (l : List Char) (s : String) (h : l = s.data) :
    (⟨l⟩ : String) = s := h ▸ rfl

/-- Splitting the transposition star off a name and re-appending it is the
identity. -/
theorem stripStar_recomb (s : String) :
    (stripStar s).1 ++ (if (stripStar s).2 then "*" else "") = s := by
  unfold stripStar
  by_cases h : s.data.getLast? = some '*'
  · simp only [if_pos h]
    show (⟨s.data.dropLast ++ ['*']⟩ : String) = s
    apply strMk_eq
    rcases List.eq_nil_or_concat s.data with hnil | ⟨l2, a, hconcat⟩
    · rw [hnil] at h; simp at h
    · rw [List.concat_eq_append] at hconcat
      rw [hconcat, List.getLast?_concat] at h
      rw [hconcat, List.dropLast_concat, Option.some.inj h]
  · simp only [if_neg h]
    show (⟨s.data ++ []⟩ : String) = s
    apply strMk_eq
    simp

/-- A successfully decoded row-oriented body carries the supplied name,
destinations, and a false transposition flag. -/
theorem decodeRowBody_fields (tn : String) (ds : List String) (h u : List String)
    (data : List (List String)) (start : Nat) (t : TypedTable)
    (ht : (decodeRowBody tn ds h u data start).1 = some t) :
    t.name = tn ∧ t.destinations = ds ∧ t.transposed = false := by
  unfold decodeRowBody at ht
  split at ht
  · exact Option.noConfusion ht
  · split at ht
    · exact Option.noConfusion ht
    · split at ht
      · exact Option.noConfusion ht
      · split at ht
        · have h2 := Option.some.inj ht
          subst h2
          exact ⟨rfl, rfl, rfl⟩
        · exact Option.noConfusion ht

/-- A successfully decoded transposed body carries the supplied name,
destinations, and a true transposition flag. -/
theorem decodeTransposedBody_fields (tn : String) (ds : List String)
    (body : List Row) (start : Nat) (t : TypedTable)
    (ht : (decodeTransposedBody tn ds body start).1 = some t) :
    t.name = tn ∧ t.destinations = ds ∧ t.transposed = true := by
  unfold decodeTransposedBody at ht
  split at ht
  · exact Option.noConfusion ht
  · split at ht
    · exact Option.noConfusion ht
    · split at ht
      · exact Option.noConfusion ht
      · split at ht
        · have h2 := Option.some.inj ht
          subst h2
          exact ⟨rfl, rfl, rfl⟩
        · exact Option.noConfusion ht

/-- A successfully decoded table span carries the de-starred span name and the
transposition flag read off the span name. -/
theorem decodeTable_fields (s : String) (rows : List Row) (start : Nat)
    (t : TypedTable) (ht : (decodeTable s rows start).1 = some t) :
    t.name = (stripStar s).1 ∧ t.transposed = (stripStar s).2 := by
  unfold decodeTable at ht
  split at ht
  · rename_i hflag
    rcases decodeTransposedBody_fields _ _ _ _ _ ht with ⟨h1, _, h3⟩
    exact ⟨h1, by rw [h3, hflag]⟩
  · rename_i hflag
    rw [Bool.not_eq_true] at hflag
    split at ht
    · have h2 := Option.some.inj ht
      subst h2
      exact ⟨rfl, by rw [hflag]⟩
    · exact Option.noConfusion ht
    · rcases decodeRowBody_fields _ _ _ _ _ _ _ ht with ⟨h1, _, h3⟩
      exact ⟨h1, by rw [h3, hflag]⟩

/-- Spans of the metadata preamble, blank runs and template rows carry the
empty name. -/
def spanNameOk (sp : Span) : Prop :=
  (sp.btype = .METADATA ∨ sp.btype = .BLANK ∨ sp.btype = .TEMPLATE_ROW) →
    sp.name = ""

/-- Finished spans stay in the state. -/
theorem mem_pushCur_of_done (st : SplitState) (sp : Span)
    (h : sp ∈ st.done) : sp ∈ pushCur st := by
  unfold pushCur
  cases st.cur
  · exact h
  · exact List.mem_cons_of_mem _ h

/-- Where a span in the splitter state after one step comes from: it either
descends from a span already in the state (same type, name and start row), or
it was opened at the current row: a TABLE or DIRECTIVE span named from the
marker cell, or an unnamed METADATA, BLANK or TEMPLATE_ROW span. -/
theorem mem_pushCur_stepRow (i : Nat) (st : SplitState) (r : Row) (sp : Span)
    (hsp : sp ∈ pushCur (stepRow i st r)) :
    (∃ sp0 ∈ pushCur st,
      sp.btype = sp0.btype ∧ sp.name = sp0.name ∧ sp.start = sp0.start) ∨
    (sp.btype = .TABLE ∧ sp.name = markerName 2 (firstCell r) ∧ sp.start = i) ∨
    (sp.btype = .DIRECTIVE ∧ sp.name = markerName 3 (firstCell r) ∧ sp.start = i) ∨
    ((sp.btype = .METADATA ∨ sp.btype = .BLANK ∨ sp.btype = .TEMPLATE_ROW) ∧
      sp.name = "" ∧ sp.start = i) := by
  have hid : ∀ sp2 ∈ pushCur st, ∃ sp0 ∈ pushCur st,
      sp2.btype = sp0.btype ∧ sp2.name = sp0.name ∧ sp2.start = sp0.start :=
    fun sp2 h2 => ⟨sp2, h2, rfl, rfl, rfl⟩
  cases hrk : rowKind r with
  | directive =>
    simp only [stepRow, hrk, pushCur] at hsp
    rcases List.mem_cons.1 hsp with rfl | h2
    · exact Or.inr (Or.inr (Or.inl ⟨rfl, rfl, rfl⟩))
    · exact Or.inl (hid _ h2)
  | table =>
    simp only [stepRow, hrk, pushCur] at hsp
    rcases List.mem_cons.1 hsp with rfl | h2
    · exact Or.inr (Or.inl ⟨rfl, rfl, rfl⟩)
    · exact Or.inl (hid _ h2)
  | blank =>
    simp only [stepRow, hrk] at hsp
    cases hsm : st.seenMarker with
    | true =>
      rw [hsm] at hsp
      simp only [if_true] at hsp
      cases hcur : st.cur with
      | some sp0 =>
        rw [hcur] at hsp
        by_cases hbt : sp0.btype = .BLANK
        · simp only [hbt, if_pos rfl, if_true, pushCur] at hsp
          rcases List.mem_cons.1 hsp with rfl | h2
          · refine Or.inl ⟨sp0, ?_, rfl, rfl, rfl⟩
            rw [pushCur, hcur]; exact List.mem_cons_self _ _
          · exact Or.inl (hid _ (mem_pushCur_of_done st sp h2))
        · simp only [if_pos rfl, if_neg hbt, pushCur] at hsp
          rcases List.mem_cons.1 hsp with rfl | h2
          · exact Or.inr (Or.inr (Or.inr ⟨Or.inr (Or.inl rfl), rfl, rfl⟩))
          · rw [hcur] at h2
            exact Or.inl (hid _ (by rw [pushCur, hcur]; exact h2))
      | none =>
        rw [hcur] at hsp
        simp only [pushCur, if_pos rfl] at hsp
        rcases List.mem_cons.1 hsp with rfl | h2
        · exact Or.inr (Or.inr (Or.inr ⟨Or.inr (Or.inl rfl), rfl, rfl⟩))
        · exact Or.inl (hid _ (mem_pushCur_of_done st sp h2))
    | false =>
      rw [hsm] at hsp
      simp only [Bool.false_eq_true, if_false] at hsp
      cases hcur : st.cur with
      | some sp0 =>
        rw [hcur] at hsp
        simp only [pushCur] at hsp
        rcases List.mem_cons.1 hsp with rfl | h2
        · refine Or.inl ⟨sp0, ?_, rfl, rfl, rfl⟩
          rw [pushCur, hcur]; exact List.mem_cons_self _ _
        · exact Or.inl (hid _ (mem_pushCur_of_done st sp h2))
      | none =>
        rw [hcur] at hsp
        simp only [pushCur] at hsp
        rcases List.mem_cons.1 hsp with rfl | h2
        · exact Or.inr (Or.inr (Or.inr ⟨Or.inl rfl, rfl, rfl⟩))
        · exact Or.inl (hid _ (mem_pushCur_of_done st sp h2))
  | plain =>
    simp only [stepRow, hrk] at hsp
    cases hsm : st.seenMarker with
    | true =>
      rw [hsm] at hsp
      simp only [if_true] at hsp
      cases hcur : st.cur with
      | some sp0 =>
        rw [hcur] at hsp
        by_cases hbt : sp0.btype = .BLANK
        · simp only [hbt, if_pos rfl, pushCur] at hsp
          have : sp ∈ openSpan .TEMPLATE_ROW "" i :: pushCur st := by
            simpa [pushCur, hcur] using hsp
          rcases List.mem_cons.1 this with rfl | h2
          · exact Or.inr (Or.inr (Or.inr ⟨Or.inr (Or.inr rfl), rfl, rfl⟩))
          · exact Or.inl (hid _ h2)
        · simp only [if_neg hbt, pushCur] at hsp
          rcases List.mem_cons.1 hsp with rfl | h2
          · refine Or.inl ⟨sp0, ?_, rfl, rfl, rfl⟩
            rw [pushCur, hcur]; exact List.mem_cons_self _ _
          · exact Or.inl (hid _ (mem_pushCur_of_done st sp h2))
      | none =>
        rw [hcur] at hsp
        simp only [pushCur] at hsp
        rcases List.mem_cons.1 hsp with rfl | h2
        · exact Or.inr (Or.inr (Or.inr ⟨Or.inr (Or.inr rfl), rfl, rfl⟩))
        · exact Or.inl (hid _ (mem_pushCur_of_done st sp h2))
    | false =>
      rw [hsm] at hsp
      simp only [Bool.false_eq_true, if_false] at hsp
      cases hcur : st.cur with
      | some sp0 =>
        rw [hcur] at hsp
        simp only [pushCur] at hsp
        rcases List.mem_cons.1 hsp with rfl | h2
        · refine Or.inl ⟨sp0, ?_, rfl, rfl, rfl⟩
          rw [pushCur, hcur]; exact List.mem_cons_self _ _
        · exact Or.inl (hid _ (mem_pushCur_of_done st sp h2))
      | none =>
        rw [hcur] at hsp
        simp only [pushCur] at hsp
        rcases List.mem_cons.1 hsp with rfl | h2
        · exact Or.inr (Or.inr (Or.inr ⟨Or.inl rfl, rfl, rfl⟩))
        · exact Or.inl (hid _ (mem_pushCur_of_done st sp h2))

/-- Every span the splitter emits from a state of well-named spans is itself
well named: METADATA, BLANK and TEMPLATE_ROW spans carry the empty name. -/
theorem splitGo_nameOk (rows : List Row) :
    ∀ (i : Nat) (st : SplitState), (∀ sp ∈ pushCur st, spanNameOk sp) →
      ∀ sp ∈ splitGo i st rows, spanNameOk sp := by
  induction rows with
  | nil =>
    intro i st h sp hsp
    simp only [splitGo, List.mem_reverse] at hsp
    exact h sp hsp
  | cons r rest ih =>
    intro i st h sp hsp
    simp only [splitGo] at hsp
    refine ih (i + 1) _ ?_ sp hsp
    intro sp2 hsp2
    rcases mem_pushCur_stepRow i st r sp2 hsp2 with
      ⟨sp0, h0, hb, hn, _⟩ | ⟨hb, _, _⟩ | ⟨hb, _, _⟩ | ⟨_, hn, _⟩
    · intro hx
      rw [hb] at hx
      rw [hn]
      exact h sp0 h0 hx
    · intro hx
      rw [hb] at hx
      rcases hx with hx | hx | hx <;> exact BlockType.noConfusion hx
    · intro hx
      rw [hb] at hx
      rcases hx with hx | hx | hx <;> exact BlockType.noConfusion hx
    · exact fun _ => hn

/-- All spans of a split grid are well named. -/
theorem splitBlocks_nameOk (g : Grid) :
    ∀ sp ∈ splitBlocks g, spanNameOk sp := by
  refine splitGo_nameOk g 0 ⟨[], none, false⟩ ?_
  intro sp h
  simp [pushCur] at h

/-- A block fully decoded from an emittable span carries the span's block
type, and its recovered name is the span name. -/
theorem decodeSpan_name (g : Grid) (sp : Span)
    (hm : sp.btype = .METADATA → sp.name = "") (b : BlockType × Block)
    (hb : (decodeSpan g sp).1 = some b) :
    b.1 = sp.btype ∧ blockSpanName b.2 = sp.name := by
  rcases sp with ⟨bt, nm, st1, st2⟩
  cases bt with
  | METADATA =>
    have h2 := Option.some.inj hb
    rw [← h2]
    exact ⟨rfl, (hm rfl).symm⟩
  | DIRECTIVE =>
    have h2 := Option.some.inj hb
    rw [← h2]
    exact ⟨rfl, rfl⟩
  | TABLE =>
    rcases Option.map_eq_some'.1 hb with ⟨t, ht, h2⟩
    rw [h2.symm]
    rcases decodeTable_fields _ _ _ _ ht with ⟨h3, h4⟩
    refine ⟨rfl, ?_⟩
    show t.name ++ (if t.transposed then "*" else "") = nm
    rw [h3, h4]
    exact stripStar_recomb nm
  | TEMPLATE_ROW => exact Option.noConfusion hb
  | BLANK => exact Option.noConfusion hb

/-- C1: for every filter predicate and grid, the blocks of a filtered parse
are exactly the blocks of an unfiltered parse with every block whose block
type and name fail the predicate discarded; and the span boundaries the two
runs classify are identical. -/
theorem c1_filter_equivalence (P : BlockFilter) (g : Grid) :
    parseBlocks P g =
      (parseBlocks noFilter g).filter (fun b => P b.1 (blockSpanName b.2)) ∧
    (parseRun P g).1 = (parseRun noFilter g).1 := by
  refine ⟨?_, rfl⟩
  unfold parseBlocks
  have hnames := splitBlocks_nameOk g
  generalize splitBlocks g = l at hnames ⊢
  induction l with
  | nil => rfl
  | cons sp rest ih =>
    have hrest : ∀ sp2 ∈ rest, spanNameOk sp2 :=
      fun sp2 h2 => hnames sp2 (List.mem_cons_of_mem _ h2)
    have hsp : spanNameOk sp := hnames sp (List.mem_cons_self _ _)
    simp only [List.flatMap_cons, List.filter_append, ih hrest]
    congr 1
    by_cases he : emittable sp.btype = true
    · have hkeepNo : keepSpan noFilter sp = true := by
        simp [keepSpan, he, noFilter]
      rw [if_pos hkeepNo]
      cases hb : (decodeSpan g sp).1 with
      | none =>
        rw [keepSpan, he, Bool.true_and]
        simp only [hb, Option.toList_none, List.filter_nil]
        split <;> rfl
      | some b =>
        rcases decodeSpan_name g sp (fun h2 => hsp (Or.inl h2)) b hb with ⟨h1, h2⟩
        rw [keepSpan, he, Bool.true_and]
        simp only [hb, Option.toList_some, List.filter_cons, List.filter_nil,
          h1, h2]
    · have h1 : keepSpan P sp = false := by
        simp [keepSpan, he]
      have h2 : keepSpan noFilter sp = false := by
        simp [keepSpan, he]
      rw [h1, h2]
      simp

/-! C2: structural backpressure of the filter gate.  The work a parse run
performs is made observable as a trace: for each span, in order, one filter
invocation (carrying nothing but the block type and the span name), followed
by a decoder invocation only when the filter keeps the span.  BLANK and
TEMPLATE_ROW spans reach neither the filter nor a decoder. -/

/-- Observable events of a parse run. -/
inductive TraceEv where
  | filterCall (spanIdx : Nat) (bt : BlockType) (name : String)
  | decodeCall (spanIdx : Nat)
deriving DecidableEq

/-- Modelled from the spec: the event trace of a parse run over the spans
from index `n` on (spec 4.2 and section 5: the filter is consulted once per
span from the marker cell only, and a span it rejects is skipped without
decoding, the row cursor simply advancing past it). -/
def traceGo (P : BlockFilter) : Nat → List Span → List TraceEv
  | _, [] => []
  | i, sp :: rest =>
    (if emittable sp.btype then
      .filterCall i sp.btype sp.name ::
        (if P sp.btype sp.name then [.decodeCall i] else [])
    else []) ++ traceGo P (i + 1) rest

/-- The event trace of a full parse run. -/
def traceRun (P : BlockFilter) (g : Grid) : List TraceEv :=
  traceGo P 0 (splitBlocks g)

/-- The span index an event refers to. -/
def evIdx : TraceEv → Nat
  | .filterCall j _ _ => j
  | .decodeCall j => j

/-- Recognize the filter invocation for span `i`. -/
def isFilterFor (i : Nat) (e : TraceEv) : Bool :=
  match e with
  | .filterCall j _ _ => j == i
  | _ => false

/-- Events in the trace from span `n` on refer to spans at index `n` or
later. -/
theorem traceGo_idx_ge (P : BlockFilter) :
    ∀ (l : List Span) (n : Nat) (e : TraceEv), e ∈ traceGo P n l → n ≤ evIdx e := by
  intro l
  induction l with
  | nil => intro n e he; simp [traceGo] at he
  | cons sp rest ih =>
    intro n e he
    rcases List.mem_append.1 he with h1 | h1
    · by_cases hem : emittable sp.btype = true
      · rw [if_pos hem] at h1
        rcases List.mem_cons.1 h1 with rfl | h2
        · exact Nat.le_refl n
        · split at h2
          · rcases List.mem_singleton.1 h2 with rfl
            exact Nat.le_refl n
          · simp at h2
      · rw [if_neg hem] at h1
        simp at h1
    · exact Nat.le_of_succ_le (ih (n + 1) e h1)

/-- The filter is invoked exactly once for every emittable span, on its block
type and name, and never for blank or template spans. -/
theorem traceGo_filter_at (P : BlockFilter) :
    ∀ (l : List Span) (n i : Nat) (sp : Span), l.get? i = some sp →
      (traceGo P n l).filter (isFilterFor (n + i)) =
        (if emittable sp.btype then
          [.filterCall (n + i) sp.btype sp.name] else []) := by
  intro l
  induction l with
  | nil => intro n i sp h; simp at h
  | cons sp0 rest ih =>
    intro n i sp h
    cases i with
    | zero =>
      have h0 : sp0 = sp := Option.some.inj h
      subst h0
      show (traceGo P n (sp0 :: rest)).filter (isFilterFor (n + 0)) = _
      have hrest : (traceGo P (n + 1) rest).filter (isFilterFor (n + 0)) = [] := by
        refine List.filter_eq_nil_iff.2 fun e he => ?_
        have := traceGo_idx_ge P rest (n + 1) e he
        cases e with
        | filterCall j bt nm =>
          simp only [isFilterFor, Bool.not_eq_true, beq_eq_false_iff_ne, ne_eq]
          simp only [evIdx] at this
          omega
        | decodeCall j => simp [isFilterFor]
      rw [traceGo, List.filter_append, hrest, List.append_nil]
      by_cases hem : emittable sp0.btype = true
      · rw [if_pos hem, if_pos hem]
        by_cases hP : P sp0.btype sp0.name = true
        · rw [if_pos hP]
          simp [isFilterFor]
        · rw [if_neg hP]
          simp [isFilterFor]
      · rw [if_neg hem, if_neg hem]
        rfl
    | succ i2 =>
      have h2 : rest.get? i2 = some sp := h
      have hchunk :
          ((if emittable sp0.btype then
            TraceEv.filterCall n sp0.btype sp0.name ::
              (if P sp0.btype sp0.name then [TraceEv.decodeCall n] else [])
          else []) : List TraceEv).filter (isFilterFor (n + (i2 + 1))) = [] := by
        refine List.filter_eq_nil_iff.2 fun e he => ?_
        split at he
        · rcases List.mem_cons.1 he with rfl | h3
          · simp only [isFilterFor, Bool.not_eq_true, beq_eq_false_iff_ne, ne_eq]
            omega
          · split at h3
            · rcases List.mem_singleton.1 h3 with rfl
              simp [isFilterFor]
            · simp at h3
        · simp at he
      rw [traceGo, List.filter_append, hchunk, List.nil_append]
      have := ih (n + 1) i2 sp h2
      have harith : n + 1 + i2 = n + (i2 + 1) := by omega
      rw [harith] at this
      exact this

/-- A span the filter rejects is never decoded. -/
theorem traceGo_no_decode (P : BlockFilter) :
    ∀ (l : List Span) (n i : Nat) (sp : Span), l.get? i = some sp →
      P sp.btype sp.name = false →
      TraceEv.decodeCall (n + i) ∉ traceGo P n l := by
  intro l
  induction l with
  | nil => intro n i sp h hP; simp [traceGo]
  | cons sp0 rest ih =>
    intro n i sp h hP hmem
    rcases List.mem_append.1 hmem with h1 | h1
    · cases i with
      | zero =>
        have h0 : sp0 = sp := Option.some.inj h
        subst h0
        split at h1
        · rcases List.mem_cons.1 h1 with h2 | h2
          · exact TraceEv.noConfusion h2
          · rw [hP] at h2
            simp at h2
        · simp at h1
      | succ i2 =>
        split at h1
        · rcases List.mem_cons.1 h1 with h2 | h2
          · exact TraceEv.noConfusion h2
          · split at h2
            · rcases List.mem_singleton.1 h2 with h3
              have : n + (i2 + 1) = n := by
                injection h3
              omega
            · simp at h2
        · simp at h1
    · cases i with
      | zero =>
        have := traceGo_idx_ge P rest (n + 1) _ h1
        simp only [evIdx] at this
        omega
      | succ i2 =>
        have h2 : rest.get? i2 = some sp := h
        have harith : n + (i2 + 1) = (n + 1) + i2 := by omega
        rw [harith] at h1
        exact ih (n + 1) i2 sp h2 hP h1

/-- A span list is contiguous from row `a` to row `b`: each span starts where
the previous one stopped. -/
def ContigTo : Nat → Nat → List Span → Prop
  | a, b, [] => a = b
  | a, b, sp :: l => sp.start = a ∧ ContigTo sp.stop b l

/-- Contiguity splits over an append. -/
theorem contigTo_append (l1 : List Span) :
    ∀ (a b : Nat) (l2 : List Span),
      ContigTo a b (l1 ++ l2) ↔ ∃ c, ContigTo a c l1 ∧ ContigTo c b l2 := by
  induction l1 with
  | nil =>
    intro a b l2
    constructor
    · exact fun h => ⟨a, rfl, h⟩
    · rintro ⟨c, hc, h2⟩
      have : a = c := hc
      rw [show ((ContigTo a b ([] ++ l2)) = ContigTo a b l2) from rfl, this]
      exact h2
  | cons sp l1 ih =>
    intro a b l2
    constructor
    · rintro ⟨h1, h2⟩
      rcases (ih _ _ _).1 h2 with ⟨c, hc1, hc2⟩
      exact ⟨c, ⟨h1, hc1⟩, hc2⟩
    · rintro ⟨c, ⟨h1, hc1⟩, hc2⟩
      exact ⟨h1, (ih _ _ _).2 ⟨c, hc1, hc2⟩⟩

/-- One splitter step either opens a fresh one-row span at the current row,
closing the previous one, or extends the currently open span by one row. -/
theorem stepRow_cases (i : Nat) (st : SplitState) (r : Row) :
    (∃ bt nm b, stepRow i st r = ⟨pushCur st, some (openSpan bt nm i), b⟩) ∨
    (∃ sp0 b, st.cur = some sp0 ∧
      stepRow i st r = ⟨st.done, some (extendSpan sp0), b⟩) := by
  cases hrk : rowKind r with
  | directive =>
    exact Or.inl ⟨.DIRECTIVE, markerName 3 (firstCell r), true,
      by simp [stepRow, hrk]⟩
  | table =>
    exact Or.inl ⟨.TABLE, markerName 2 (firstCell r), true,
      by simp [stepRow, hrk]⟩
  | blank =>
    cases hsm : st.seenMarker with
    | true =>
      cases hcur : st.cur with
      | some sp0 =>
        by_cases hbt : sp0.btype = .BLANK
        · exact Or.inr ⟨sp0, true, rfl, by simp [stepRow, hrk, hsm, hcur, hbt]⟩
        · exact Or.inl ⟨.BLANK, "", true, by simp [stepRow, hrk, hsm, hcur, hbt]⟩
      | none =>
        refine Or.inl ⟨.BLANK, "", true, ?_⟩
        have hpc : pushCur st = st.done := by rw [pushCur, hcur]
        rw [hpc]
        simp [stepRow, hrk, hsm, hcur]
    | false =>
      cases hcur : st.cur with
      | some sp0 =>
        exact Or.inr ⟨sp0, false, rfl, by simp [stepRow, hrk, hsm, hcur]⟩
      | none =>
        refine Or.inl ⟨.METADATA, "", false, ?_⟩
        have hpc : pushCur st = st.done := by rw [pushCur, hcur]
        rw [hpc]
        simp [stepRow, hrk, hsm, hcur]
  | plain =>
    cases hsm : st.seenMarker with
    | true =>
      cases hcur : st.cur with
      | some sp0 =>
        by_cases hbt : sp0.btype = .BLANK
        · exact Or.inl ⟨.TEMPLATE_ROW, "", true,
            by simp [stepRow, hrk, hsm, hcur, hbt]⟩
        · exact Or.inr ⟨sp0, true, rfl, by simp [stepRow, hrk, hsm, hcur, hbt]⟩
      | none =>
        refine Or.inl ⟨.TEMPLATE_ROW, "", true, ?_⟩
        have hpc : pushCur st = st.done := by rw [pushCur, hcur]
        rw [hpc]
        simp [stepRow, hrk, hsm, hcur]
    | false =>
      cases hcur : st.cur with
      | some sp0 =>
        exact Or.inr ⟨sp0, false, rfl, by simp [stepRow, hrk, hsm, hcur]⟩
      | none =>
        refine Or.inl ⟨.METADATA, "", false, ?_⟩
        have hpc : pushCur st = st.done := by rw [pushCur, hcur]
        rw [hpc]
        simp [stepRow, hrk, hsm, hcur]

/-- The splitter keeps its accumulated spans contiguous. -/
theorem splitGo_contig (rows : List Row) :
    ∀ (i : Nat) (st : SplitState), ContigTo 0 i ((pushCur st).reverse) →
      ContigTo 0 (i + rows.length) (splitGo i st rows) := by
  induction rows with
  | nil =>
    intro i st h
    simpa [splitGo] using h
  | cons r rest ih =>
    intro i st h
    have hstep : ContigTo 0 (i + 1) ((pushCur (stepRow i st r)).reverse) := by
      rcases stepRow_cases i st r with ⟨bt, nm, b, heq⟩ | ⟨sp0, b, hcur, heq⟩
      · rw [heq]
        show ContigTo 0 (i + 1) ((openSpan bt nm i :: pushCur st).reverse)
        rw [List.reverse_cons]
        refine (contigTo_append _ _ _ _).2 ⟨i, h, ?_⟩
        exact ⟨rfl, rfl⟩
      · rw [heq]
        show ContigTo 0 (i + 1) ((extendSpan sp0 :: st.done).reverse)
        rw [List.reverse_cons]
        have h2 : (pushCur st).reverse = st.done.reverse ++ [sp0] := by
          rw [pushCur, hcur, List.reverse_cons]
        rw [h2] at h
        rcases (contigTo_append _ _ _ _).1 h with ⟨c, hc1, hc2⟩
        rcases hc2 with ⟨hc2a, hc2b⟩
        refine (contigTo_append _ _ _ _).2 ⟨c, hc1, ?_⟩
        refine ⟨hc2a, ?_⟩
        show sp0.stop + 1 = i + 1
        have : sp0.stop = i := hc2b
        omega
    have := ih (i + 1) _ hstep
    have harith : i + 1 + rest.length = i + (rest.length + 1) := by omega
    rw [harith] at this
    simpa [splitGo] using this

/-- The spans of a split grid tile the grid contiguously from row zero. -/
theorem splitBlocks_contig (g : Grid) :
    ContigTo 0 g.length (splitBlocks g) := by
  have h0 : ContigTo 0 0 ((pushCur ⟨[], none, false⟩).reverse) := rfl
  have := splitGo_contig g 0 ⟨[], none, false⟩ h0
  rw [Nat.zero_add] at this
  exact this

/-- In a contiguous span list, each span starts where its predecessor
stopped. -/
theorem contigTo_adjacent :
    ∀ (l : List Span) (a b i : Nat) (sp sq : Span), ContigTo a b l →
      l.get? i = some sp → l.get? (i + 1) = some sq → sq.start = sp.stop := by
  intro l
  induction l with
  | nil => intro a b i sp sq hc h1; simp at h1
  | cons sp0 rest ih =>
    intro a b i sp sq hc h1 h2
    rcases hc with ⟨hc1, hc2⟩
    cases i with
    | zero =>
      have h0 : sp0 = sp := Option.some.inj h1
      subst h0
      have h3 : rest.get? 0 = some sq := h2
      cases rest with
      | nil => simp at h3
      | cons sq0 rest2 =>
        have h4 : sq0 = sq := Option.some.inj h3
        subst h4
        exact hc2.1
    | succ i2 =>
      exact ih sp0.stop b i2 sp sq hc2 h1 h2

/-- C2: for every span the filter rejects, the decoder for that span is never
invoked and the filter itself is invoked exactly once per emittable span
(never for blank or template spans), receiving only the block type and span
name — the trace event carries nothing else; and the row cursor still
advances past the entire skipped span: the next classified span starts
exactly at the skipped span's stop row. -/
theorem c2_filter_backpressure (P : BlockFilter) (g : Grid) (i : Nat)
    (sp : Span) (hsp : (splitBlocks g).get? i = some sp) :
    ((traceRun P g).filter (isFilterFor i) =
      if emittable sp.btype then [.filterCall i sp.btype sp.name] else []) ∧
    (P sp.btype sp.name = false → TraceEv.decodeCall i ∉ traceRun P g) ∧
    (∀ sq, (splitBlocks g).get? (i + 1) = some sq → sq.start = sp.stop) := by
  refine ⟨?_, ?_, ?_⟩
  · have := traceGo_filter_at P (splitBlocks g) 0 i sp hsp
    rw [Nat.zero_add] at this
    exact this
  · intro hP
    have := traceGo_no_decode P (splitBlocks g) 0 i sp hsp hP
    rw [Nat.zero_add] at this
    exact this
  · intro sq hsq
    exact contigTo_adjacent (splitBlocks g) 0 g.length i sp sq
      (splitBlocks_contig g) hsp hsq

/-- Witness for C2 at a concrete grid, filter and span: the rejected first
table span is never decoded. -/
theorem c2_filter_backpressure_witness :
    TraceEv.decodeCall 0 ∉
      traceRun (fun _ nm => nm == "keep") [["**a;"], ["x"], ["**keep;"]] :=
  (c2_filter_backpressure (fun _ nm => nm == "keep")
    [["**a;"], ["x"], ["**keep;"]] 0 ⟨.TABLE, "a", 0, 2⟩ (by decide)).2.1
    (by decide)

/-! C8: row classification and the spans it opens. -/

/-- Spans already finished stay finished through a splitter step. -/
theorem stepRow_done_sub (i : Nat) (st : SplitState) (r : Row) (sp : Span)
    (h : sp ∈ st.done) : sp ∈ (stepRow i st r).done := by
  rcases stepRow_cases i st r with ⟨bt, nm, b, heq⟩ | ⟨sp0, b, hcur, heq⟩
  · rw [heq]
    exact mem_pushCur_of_done st sp h
  · rw [heq]
    exact h

/-- Finished spans appear in the splitter's output. -/
theorem splitGo_done_mem (rows : List Row) :
    ∀ (i : Nat) (st : SplitState) (sp : Span), sp ∈ st.done →
      sp ∈ splitGo i st rows := by
  induction rows with
  | nil =>
    intro i st sp h
    simp only [splitGo, List.mem_reverse]
    exact mem_pushCur_of_done st sp h
  | cons r rest ih =>
    intro i st sp h
    simp only [splitGo]
    exact ih (i + 1) _ sp (stepRow_done_sub i st r sp h)

/-- The open span appears in the splitter's output with its block type, name
and start row intact (only its stop row can grow). -/
theorem splitGo_cur_mem (rows : List Row) :
    ∀ (i : Nat) (st : SplitState) (sp : Span), st.cur = some sp →
      ∃ sp2 ∈ splitGo i st rows, sp2.btype = sp.btype ∧ sp2.name = sp.name ∧
        sp2.start = sp.start ∧ sp.stop ≤ sp2.stop := by
  induction rows with
  | nil =>
    intro i st sp h
    refine ⟨sp, ?_, rfl, rfl, rfl, Nat.le_refl _⟩
    simp only [splitGo, List.mem_reverse]
    rw [pushCur, h]
    exact List.mem_cons_self _ _
  | cons r rest ih =>
    intro i st sp h
    simp only [splitGo]
    rcases stepRow_cases i st r with ⟨bt, nm, b, heq⟩ | ⟨sp0, b, hcur, heq⟩
    · have hdone : sp ∈ (stepRow i st r).done := by
        rw [heq]
        rw [pushCur, h]
        exact List.mem_cons_self _ _
      exact ⟨sp, splitGo_done_mem rest (i + 1) _ sp hdone, rfl, rfl, rfl,
        Nat.le_refl _⟩
    · have hsp0 : sp0 = sp := by
        rw [h] at hcur
        exact (Option.some.inj hcur).symm
      subst hsp0
      have hcur2 : (stepRow i st r).cur = some (extendSpan sp0) := by rw [heq]
      rcases ih (i + 1) _ _ hcur2 with ⟨sp2, hmem, h1, h2, h3, h4⟩
      exact ⟨sp2, hmem, h1, h2, h3, Nat.le_trans (Nat.le_succ _) h4⟩

/-- A marker row opens a span of the corresponding type at its own row,
named from its marker cell. -/
theorem splitGo_marker (rows : List Row) :
    ∀ (n : Nat) (st : SplitState) (i : Nat) (r : Row), rows.get? i = some r →
      (rowKind r = .table ∨ rowKind r = .directive) →
      ∃ sp ∈ splitGo n st rows, sp.start = n + i ∧
        ((rowKind r = .table ∧ sp.btype = .TABLE ∧
          sp.name = markerName 2 (firstCell r)) ∨
         (rowKind r = .directive ∧ sp.btype = .DIRECTIVE ∧
          sp.name = markerName 3 (firstCell r))) := by
  induction rows with
  | nil => intro n st i r h; simp at h
  | cons r0 rest ih =>
    intro n st i r h hk
    cases i with
    | zero =>
      have h0 : r0 = r := Option.some.inj h
      subst h0
      simp only [splitGo]
      rcases hk with hk | hk
      · have hstep : stepRow n st r0 =
            ⟨pushCur st, some (openSpan .TABLE (markerName 2 (firstCell r0)) n),
             true⟩ := by
          simp [stepRow, hk]
        rcases splitGo_cur_mem rest (n + 1) (stepRow n st r0)
            (openSpan .TABLE (markerName 2 (firstCell r0)) n)
            (by rw [hstep]) with ⟨sp2, hmem, h1, h2, h3, _⟩
        exact ⟨sp2, hmem, by rw [h3]; rfl, Or.inl ⟨hk, h1, h2⟩⟩
      · have hstep : stepRow n st r0 =
            ⟨pushCur st, some (openSpan .DIRECTIVE (markerName 3 (firstCell r0)) n),
             true⟩ := by
          simp [stepRow, hk]
        rcases splitGo_cur_mem rest (n + 1) (stepRow n st r0)
            (openSpan .DIRECTIVE (markerName 3 (firstCell r0)) n)
            (by rw [hstep]) with ⟨sp2, hmem, h1, h2, h3, _⟩
        exact ⟨sp2, hmem, by rw [h3]; rfl, Or.inr ⟨hk, h1, h2⟩⟩
    | succ i2 =>
      have h2 : rest.get? i2 = some r := h
      simp only [splitGo]
      rcases ih (n + 1) (stepRow n st r0) i2 r h2 hk with ⟨sp, hmem, h3, h4⟩
      refine ⟨sp, hmem, ?_, h4⟩
      rw [h3]
      omega

/-- Before any marker row, a non-marker row extends (or opens) the metadata
preamble span. -/
theorem stepRow_pre (i : Nat) (st : SplitState) (r : Row)
    (hsm : st.seenMarker = false) (h1 : rowKind r ≠ .table)
    (h2 : rowKind r ≠ .directive) :
    stepRow i st r =
      (match st.cur with
       | some sp => ⟨st.done, some (extendSpan sp), false⟩
       | none => ⟨st.done, some (openSpan .METADATA "" i), false⟩) := by
  cases hrk : rowKind r with
  | table => exact absurd hrk h1
  | directive => exact absurd hrk h2
  | blank => cases hcur : st.cur <;> simp [stepRow, hrk, hsm, hcur]
  | plain => cases hcur : st.cur <;> simp [stepRow, hrk, hsm, hcur]

/-- Every row up to index `i`, none of the rows so far being marker rows,
lies inside a single metadata preamble span starting at row zero. -/
theorem splitGo_preamble (rows : List Row) :
    ∀ (n : Nat) (st : SplitState) (i : Nat),
      st.seenMarker = false →
      (st.cur = none → n = 0) →
      (∀ sp0, st.cur = some sp0 →
        sp0.btype = .METADATA ∧ sp0.start = 0 ∧ sp0.stop = n) →
      (∀ j r2, j ≤ i → rows.get? j = some r2 →
        rowKind r2 ≠ .table ∧ rowKind r2 ≠ .directive) →
      i < rows.length →
      ∃ sp ∈ splitGo n st rows, sp.btype = .METADATA ∧ sp.start = 0 ∧
        n + i < sp.stop := by
  induction rows with
  | nil => intro n st i _ _ _ _ hlen; simp at hlen
  | cons r0 rest ih =>
    intro n st i hsm hnone hsome hrows hlen
    have hr0 := hrows 0 r0 (Nat.zero_le _) rfl
    have hstep := stepRow_pre n st r0 hsm hr0.1 hr0.2
    have hcur2 : ∃ sp1, (stepRow n st r0).cur = some sp1 ∧
        sp1.btype = .METADATA ∧ sp1.start = 0 ∧ sp1.stop = n + 1 := by
      cases hcur : st.cur with
      | some sp0 =>
        rw [hcur] at hstep
        rcases hsome sp0 hcur with ⟨hb, hs, hp⟩
        exact ⟨extendSpan sp0, by rw [hstep], hb, hs, by rw [extendSpan, hp]⟩
      | none =>
        rw [hcur] at hstep
        have hn0 := hnone hcur
        subst hn0
        exact ⟨openSpan .METADATA "" 0, by rw [hstep], rfl, rfl, rfl⟩
    rcases hcur2 with ⟨sp1, hc1, hb1, hs1, hp1⟩
    have hsm2 : (stepRow n st r0).seenMarker = false := by
      rw [hstep]
      cases st.cur <;> rfl
    cases i with
    | zero =>
      simp only [splitGo]
      rcases splitGo_cur_mem rest (n + 1) _ _ hc1 with ⟨sp2, hmem, h1, h2, h3, h4⟩
      refine ⟨sp2, hmem, by rw [h1, hb1], by rw [h3, hs1], ?_⟩
      omega
    | succ i2 =>
      simp only [splitGo]
      have hres := ih (n + 1) (stepRow n st r0) i2 hsm2
        (fun hc => by rw [hc1] at hc; exact Option.noConfusion hc)
        (fun sp0 hc => by
          rw [hc1] at hc
          rw [← Option.some.inj hc]
          exact ⟨hb1, hs1, hp1⟩)
        (fun j r2 hj hr2 => hrows (j + 1) r2 (by omega) hr2)
        (by simpa using Nat.lt_of_succ_lt_succ hlen)
      rcases hres with ⟨sp, hmem, hb, hs, hlt⟩
      exact ⟨sp, hmem, hb, hs, by omega⟩

/-- C8: a row whose first cell begins with two stars but not three opens a
TABLE span at that row, named with the trimmed text after the two stars up to
the semicolon separator; a row whose first cell begins with three stars opens
a DIRECTIVE span there, and marker classification reads only the first cell;
all rows before the first marker row lie in the single METADATA preamble span
starting at row zero. -/
theorem c8_row_classification :
    (∀ r : Row,
      (rowKind r = .table ↔
        strStartsWith "**" (firstCell r) = true ∧
        strStartsWith "***" (firstCell r) = false) ∧
      (rowKind r = .directive ↔ strStartsWith "***" (firstCell r) = true)) ∧
    (∀ (g : Grid) (i : Nat) (r : Row), g.get? i = some r → rowKind r = .table →
      ∃ sp ∈ splitBlocks g, sp.btype = .TABLE ∧ sp.start = i ∧
        sp.name = markerName 2 (firstCell r)) ∧
    (∀ (g : Grid) (i : Nat) (r : Row), g.get? i = some r →
      rowKind r = .directive →
      ∃ sp ∈ splitBlocks g, sp.btype = .DIRECTIVE ∧ sp.start = i ∧
        sp.name = markerName 3 (firstCell r)) ∧
    (∀ (g : Grid) (i : Nat) (r : Row), g.get? i = some r →
      (∀ j r2, j ≤ i → g.get? j = some r2 →
        rowKind r2 ≠ .table ∧ rowKind r2 ≠ .directive) →
      ∃ sp ∈ splitBlocks g, sp.btype = .METADATA ∧ sp.start = 0 ∧
        i < sp.stop) := by
  refine ⟨?_, ?_, ?_, ?_⟩
  · intro r
    constructor
    · unfold rowKind
      split_ifs with h1 h2 h3 <;> simp_all
    · unfold rowKind
      split_ifs with h1 h2 h3 <;> simp_all
  · intro g i r h hk
    rcases splitGo_marker g 0 ⟨[], none, false⟩ i r h (Or.inl hk) with
      ⟨sp, hmem, h1, h2⟩
    rcases h2 with ⟨_, hb, hn⟩ | ⟨hk2, _, _⟩
    · exact ⟨sp, hmem, hb, by rw [h1]; omega, hn⟩
    · rw [hk] at hk2
      exact absurd hk2 (by simp)
  · intro g i r h hk
    rcases splitGo_marker g 0 ⟨[], none, false⟩ i r h (Or.inr hk) with
      ⟨sp, hmem, h1, h2⟩
    rcases h2 with ⟨hk2, _, _⟩ | ⟨_, hb, hn⟩
    · rw [hk] at hk2
      exact absurd hk2 (by simp)
    · exact ⟨sp, hmem, hb, by rw [h1]; omega, hn⟩
  · intro g i r h hrows
    have hlen : i < g.length := by
      by_contra hc
      rw [List.get?_eq_none.2 (by omega)] at h
      exact Option.noConfusion h
    rcases splitGo_preamble g 0 ⟨[], none, false⟩ i rfl (fun _ => rfl)
      (fun sp0 hc => Option.noConfusion hc) hrows hlen with ⟨sp, hmem, h1, h2, h3⟩
    exact ⟨sp, hmem, h1, h2, by omega⟩

/-- Witness for C8 at a concrete grid: the marker row at index 1 opens a
TABLE span there, and the non-marker row at index 0 lies in the metadata
preamble span. -/
theorem c8_row_classification_witness :
    (∃ sp ∈ splitBlocks [["x"], ["**t;"]], sp.btype = .TABLE ∧ sp.start = 1 ∧
      sp.name = markerName 2 (firstCell ["**t;"])) ∧
    (∃ sp ∈ splitBlocks [["x"], ["**t;"]], sp.btype = .METADATA ∧
      sp.start = 0 ∧ 0 < sp.stop) :=
  ⟨c8_row_classification.2.1 [["x"], ["**t;"]] 1 ["**t;"] (by decide) (by decide),
   c8_row_classification.2.2.2 [["x"], ["**t;"]] 0 ["x"] (by decide)
     (fun j r2 hj hr2 => by
        have hj0 : j = 0 := Nat.le_zero.1 hj
        subst hj0
        rw [← Option.some.inj hr2]
        constructor <;> decide)⟩

/-! C4 and C7 concern the round trip: a valid decoded table, encoded back to
the source cell-grid format (in row-oriented or transposed layout) and parsed
again, yields the original table and no issue.  The next sections build the
required facts about digits, values, names, the splitter on encoded grids,
destinations, and transposition. -/

/-- Reading back the character of a digit. -/
theorem digitVal?_digitChar (d : Nat) (hd : d < 10) :
    digitVal? (digitChar d) = some d := by
  interval_cases d <;> rfl

/-- Digit characters are digits, not punctuation. -/
theorem digitChar_mem (d : Nat) :
    digitChar d ∈ ['0', '1', '2', '3', '4', '5', '6', '7', '8', '9'] := by
  unfold digitChar
  split_ifs <;> simp

/-- Greedy digit reading consumes exactly a rendered digit block when the
remainder does not begin with a digit. -/
theorem readDigits_append (ds : List Nat) (rest : List Char)
    (hds : ∀ d ∈ ds, d < 10)
    (hrest : ∀ c, rest.head? = some c → digitVal? c = none) :
    readDigits (ds.map digitChar ++ rest) = (ds, rest) := by
  induction ds with
  | nil =>
    cases rest with
    | nil => rfl
    | cons c t =>
      have := hrest c rfl
      simp [readDigits, this]
  | cons d ds ih =>
    have hd : d < 10 := hds d (List.mem_cons_self _ _)
    have ih2 := ih fun d2 h2 => hds d2 (List.mem_cons_of_mem _ h2)
    simp [readDigits, digitVal?_digitChar d hd, ih2]

/-- The fuel-driven digit function agrees with the mathematical one. -/
theorem digitsFuel_eq (f : Nat) :
    ∀ n, n ≤ f → digitsFuel f n = Nat.digits 10 n := by
  induction f with
  | zero =>
    intro n hn
    have h0 : n = 0 := Nat.le_zero.1 hn
    subst h0
    simp [digitsFuel]
  | succ f ih =>
    intro n hn
    by_cases h0 : n = 0
    · subst h0; simp [digitsFuel]
    · show (if n = 0 then [] else n % 10 :: digitsFuel f (n / 10)) = _
      rw [if_neg h0,
        Nat.digits_def' (by norm_num : 1 < 10) (Nat.pos_of_ne_zero h0)]
      congr 1
      refine ih (n / 10) ?_
      have := Nat.div_lt_self (Nat.pos_of_ne_zero h0) (by norm_num : 1 < 10)
      omega

/-- The digit list of a number is never empty. -/
theorem digitsMSF_ne_nil (n : Nat) : digitsMSF n ≠ [] := by
  unfold digitsMSF
  by_cases h0 : n = 0
  · simp [h0]
  · rw [if_neg h0, digitsFuel_eq n n (Nat.le_refl n)]
    simp [Nat.digits_ne_nil_iff_ne_zero, h0]

/-- All digits of a number are below ten. -/
theorem digitsMSF_lt (n : Nat) : ∀ d ∈ digitsMSF n, d < 10 := by
  unfold digitsMSF
  by_cases h0 : n = 0
  · simp [h0]
  · rw [if_neg h0, digitsFuel_eq n n (Nat.le_refl n)]
    intro d hd
    exact Nat.digits_lt_base (by norm_num) (List.mem_reverse.1 hd)

/-- Digit rendering round-trips through the digit list value. -/
theorem natFromDigits_digitsMSF (n : Nat) : natFromDigits (digitsMSF n) = n := by
  unfold natFromDigits digitsMSF
  by_cases h0 : n = 0
  · simp [h0, Nat.ofDigits]
  · rw [if_neg h0, digitsFuel_eq n n (Nat.le_refl n), List.reverse_reverse]
    exact Nat.ofDigits_digits 10 n

/-- Trailing zero digits contribute nothing. -/
theorem ofDigits_replicate_zero (k : Nat) :
    Nat.ofDigits 10 (List.replicate k 0) = 0 := by
  induction k with
  | zero => rfl
  | succ k ih => simp [List.replicate, Nat.ofDigits_cons, ih]

/-- Left zero padding preserves the value. -/
theorem natFromDigits_padDigits (w n : Nat) :
    natFromDigits (padDigits w n) = n := by
  unfold natFromDigits padDigits
  rw [List.reverse_append, List.reverse_replicate, Nat.ofDigits_append,
    ofDigits_replicate_zero]
  have := natFromDigits_digitsMSF n
  unfold natFromDigits at this
  rw [this]
  ring

/-- All padded digits are below ten. -/
theorem padDigits_lt (w n : Nat) : ∀ d ∈ padDigits w n, d < 10 := by
  intro d hd
  rcases List.mem_append.1 hd with h | h
  · rw [List.eq_of_mem_replicate h]
    norm_num
  · exact digitsMSF_lt n d h

/-- A padded digit list is never empty. -/
theorem padDigits_ne_nil (w n : Nat) : padDigits w n ≠ [] := by
  unfold padDigits
  intro h
  rcases List.append_eq_nil.1 h with ⟨_, h2⟩
  exact digitsMSF_ne_nil n h2

/-- Modelled from the spec: a value is well formed for a unit when it is what
the unit's coercer produces: strings under text, booleans or missing under
onoff, in-range timestamps or missing under datetime, and canonical decimals
(digits below ten, no trailing fraction zeros, no negative zero) or missing
under any numeric unit (spec section 3). -/
def valueOk (u : String) (v : Value) : Bool :=
  match unitClass u, v with
  | .text, .vText _ => true
  | .onoff, .vBool _ => true
  | .onoff, .vMissing => true
  | .datetime, .vTime y mo dd h mi s =>
    decide (1 ≤ mo ∧ mo ≤ 12 ∧ 1 ≤ dd ∧ dd ≤ 31 ∧ y ≤ 9999 ∧
      h ≤ 23 ∧ mi ≤ 59 ∧ s ≤ 59)
  | .datetime, .vMissing => true
  | .num, .vNum neg ip fr =>
    decide (∀ d ∈ fr, d < 10) && (stripZeros fr == fr) &&
      !(neg && ((ip == 0) && fr.isEmpty))
  | .num, .vMissing => true
  | _, _ => false

/-- A digit character is none of the given punctuation characters. -/
theorem digitChar_ne (d : Nat) (c : Char)
    (hc : c ∉ ['0', '1', '2', '3', '4', '5', '6', '7', '8', '9']) :
    digitChar d ≠ c := fun he => hc (he ▸ digitChar_mem d)

/-- Two lists with distinct heads differ. -/
theorem ne_of_head (l l2 : List Char) (c c2 : Char) (h1 : l.head? = some c)
    (h2 : l2.head? = some c2) (hne : c ≠ c2) : l ≠ l2 := by
  intro he
  rw [he, h2] at h1
  exact hne (Option.some.inj h1).symm

/-- A cell whose characters start with something other than a dash or an n is
not a missing-value spelling. -/
theorem isMissingCell_eq_false (s : String) (h1 : s.data ≠ ['-'])
    (h2 : s.data ≠ []) (h3 : s.data ≠ ['n', 'a', 'n'])
    (h4 : s.data ≠ ['N', 'a', 'N']) : isMissingCell s = false := by
  have e1 : s ≠ "-" := fun he => h1 (by rw [he])
  have e2 : s ≠ "" := fun he => h2 (by rw [he])
  have e3 : s ≠ "nan" := fun he => h3 (by rw [he])
  have e4 : s ≠ "NaN" := fun he => h4 (by rw [he])
  simp [isMissingCell, e1, e2, e3, e4]

/-- The head of a rendered digit block. -/
theorem head?_digits_append (ds : List Nat) (rest : List Char)
    (hne : ds ≠ []) :
    ∃ d, (ds.map digitChar ++ rest).head? = some (digitChar d) := by
  cases ds with
  | nil => exact absurd rfl hne
  | cons d ds2 => exact ⟨d, rfl⟩

/-- A rendered digit block followed by anything is not a missing-value
spelling. -/
theorem isMissingCell_digits (ds : List Nat) (rest : List Char) (hne : ds ≠ []) :
    isMissingCell ⟨ds.map digitChar ++ rest⟩ = false := by
  rcases head?_digits_append ds rest hne with ⟨d, hd⟩
  refine isMissingCell_eq_false _ ?_ ?_ ?_ ?_
  · show ds.map digitChar ++ rest ≠ ['-']
    exact ne_of_head _ _ _ _ hd rfl (digitChar_ne d '-' (by decide))
  · show ds.map digitChar ++ rest ≠ []
    intro he
    rw [he] at hd
    exact Option.noConfusion hd
  · show ds.map digitChar ++ rest ≠ ['n', 'a', 'n']
    exact ne_of_head _ _ _ _ hd rfl (digitChar_ne d 'n' (by decide))
  · show ds.map digitChar ++ rest ≠ ['N', 'a', 'N']
    exact ne_of_head _ _ _ _ hd rfl (digitChar_ne d 'N' (by decide))



/-- Reading digitVal of separator characters. -/
theorem digitVal?_dash : digitVal? '-' = none := by decide
theorem digitVal?_dot : digitVal? '.' = none := by decide
theorem digitVal?_space : digitVal? ' ' = none := by decide
theorem digitVal?_colon : digitVal? ':' = none := by decide

/-- Greedy digit reading of one rendered field before a non-digit separator. -/
theorem readDigits_field (ds : List Nat) (sep : Char) (rest : List Char)
    (hds : ∀ d ∈ ds, d < 10) (hsep : digitVal? sep = none) :
    readDigits (ds.map digitChar ++ sep :: rest) = (ds, sep :: rest) :=
  readDigits_append ds (sep :: rest) hds
    (fun c hc => by rw [← Option.some.inj hc]; exact hsep)

/-- Greedy digit reading of a final rendered field. -/
theorem readDigits_last (ds : List Nat) (hds : ∀ d ∈ ds, d < 10) :
    readDigits (ds.map digitChar) = (ds, []) := by
  have := readDigits_append ds [] hds (fun c hc => Option.noConfusion hc)
  rwa [List.append_nil] at this

/-- One rendered field followed by its separator passes the field reader. -/
theorem expectSep_render (ds : List Nat) (sep : Char) (rest : List Char)
    (hds : ∀ d ∈ ds, d < 10) (hsep : digitVal? sep = none) (hne : ds ≠ []) :
    expectSep sep (readDigits (ds.map digitChar ++ sep :: rest)) =
      some (ds, rest) := by
  rw [readDigits_field ds sep rest hds hsep]
  unfold expectSep
  dsimp only
  rw [if_neg hne]
  rw [if_pos (show (sep :: rest).head? = some sep from rfl)]
  rfl

/-- Parsing the rendering of a timestamp recovers it exactly. -/
theorem parseTime_render (y mo dd h mi s : Nat) :
    parseTime (renderPad 4 y ++ '-' :: renderPad 2 mo ++ '-' :: renderPad 2 dd ++
      ' ' :: renderPad 2 h ++ ':' :: renderPad 2 mi ++ ':' :: renderPad 2 s) =
    some (.vTime y mo dd h mi s) := by
  simp only [renderPad, List.append_assoc, List.cons_append]
  unfold parseTime
  rw [expectSep_render _ _ _ (padDigits_lt 4 y) digitVal?_dash (padDigits_ne_nil 4 y)]
  dsimp only
  rw [expectSep_render _ _ _ (padDigits_lt 2 mo) digitVal?_dash (padDigits_ne_nil 2 mo)]
  dsimp only
  rw [expectSep_render _ _ _ (padDigits_lt 2 dd) digitVal?_space (padDigits_ne_nil 2 dd)]
  dsimp only
  rw [expectSep_render _ _ _ (padDigits_lt 2 h) digitVal?_colon (padDigits_ne_nil 2 h)]
  dsimp only
  rw [expectSep_render _ _ _ (padDigits_lt 2 mi) digitVal?_colon (padDigits_ne_nil 2 mi)]
  dsimp only
  rw [readDigits_last _ (padDigits_lt 2 s)]
  dsimp only
  rw [if_neg (padDigits_ne_nil 2 s)]
  rw [natFromDigits_padDigits, natFromDigits_padDigits, natFromDigits_padDigits,
    natFromDigits_padDigits, natFromDigits_padDigits, natFromDigits_padDigits]

/-- The field-and-separator reader on an explicit pair. -/
theorem expectSep_cons (c : Char) (ds : List Nat) (rest : List Char)
    (hne : ds ≠ []) : expectSep c (ds, c :: rest) = some (ds, rest) := by
  unfold expectSep
  dsimp only
  rw [if_neg hne]
  rw [if_pos (show (c :: rest).head? = some c from rfl)]
  rfl

/-- Parsing the rendering of a canonical signed decimal recovers it
exactly. -/
theorem parseNum_render (neg : Bool) (ip : Nat) (fr : List Nat)
    (hfr : ∀ d ∈ fr, d < 10) (hstrip : stripZeros fr = fr)
    (hsign : (neg && ((ip == 0) && fr.isEmpty)) = false) :
    parseNum (renderValue (.vNum neg ip fr)) = some (.vNum neg ip fr) := by
  have hfrd : ∀ d ∈ (if fr.isEmpty then [0] else fr), d < 10 := by
    split
    · intro d hd
      rw [List.eq_of_mem_singleton hd]
      norm_num
    · exact hfr
  have hfrdne : (if fr.isEmpty then [0] else fr) ≠ [] := by
    split
    · simp
    · rename_i hh
      simpa [List.isEmpty_iff] using hh
  have hfrchars : (if fr.isEmpty then ['0'] else fr.map digitChar) =
      (if fr.isEmpty then [0] else fr).map digitChar := by
    split <;> rfl
  have hstrip2 : stripZeros (if fr.isEmpty then [0] else fr) = fr := by
    by_cases hh : fr.isEmpty = true
    · rw [if_pos hh]
      rw [List.isEmpty_iff.1 hh]
      decide
    · rw [if_neg hh]
      exact hstrip
  have hcore : parseDecCore ((if neg then ['-'] else []) ++ renderNat ip ++
      '.' :: (if fr.isEmpty then ['0'] else fr.map digitChar)) =
      some (neg, ip, fr) := by
    have hread : readDigits (renderNat ip ++
        '.' :: (if fr.isEmpty then ['0'] else fr.map digitChar)) =
        (digitsMSF ip, '.' :: (if fr.isEmpty then [0] else fr).map digitChar) := by
      rw [hfrchars]
      exact readDigits_field _ _ _ (digitsMSF_lt ip) digitVal?_dot
    have hfrac : readDigits ((if fr.isEmpty then [0] else fr).map digitChar) =
        ((if fr.isEmpty then [0] else fr), []) :=
      readDigits_last _ hfrd
    cases neg with
    | false =>
      have hhead : ∃ d, (renderNat ip ++
          '.' :: (if fr.isEmpty then ['0'] else fr.map digitChar)).head? =
          some (digitChar d) := by
        rcases List.exists_cons_of_ne_nil (digitsMSF_ne_nil ip) with ⟨d0, ds0, hds⟩
        refine ⟨d0, ?_⟩
        show ((digitsMSF ip).map digitChar ++ _).head? = _
        rw [hds]
        rfl
      rcases hhead with ⟨d0, hd0⟩
      have hnegb : decide ((((if (false : Bool) then ['-'] else []) ++ renderNat ip ++
          '.' :: (if fr.isEmpty then ['0'] else fr.map digitChar)).head?) = some '-') = false := by
        apply decide_eq_false
        show ¬(renderNat ip ++ '.' :: _).head? = some '-'
        intro hc
        rw [hd0] at hc
        exact digitChar_ne d0 '-' (by decide) (Option.some.inj hc)
      unfold parseDecCore
      rw [hnegb]
      simp only [Bool.false_eq_true, if_false, List.nil_append]
      rw [hread]
      dsimp only
      rw [if_neg (digitsMSF_ne_nil ip)]
      rw [if_neg (by simp)]
      rw [expectSep_cons _ _ _ (digitsMSF_ne_nil ip)]
      dsimp only
      rw [hfrac]
      dsimp only
      rw [if_neg hfrdne, natFromDigits_digitsMSF, hstrip2]
    | true =>
      have hnegb : decide ((((if (true : Bool) then ['-'] else []) ++ renderNat ip ++
          '.' :: (if fr.isEmpty then ['0'] else fr.map digitChar)).head?) = some '-') = true := by
        apply decide_eq_true
        rfl
      unfold parseDecCore
      rw [hnegb]
      simp only [if_true, List.cons_append, List.nil_append, List.tail_cons]
      rw [hread]
      dsimp only
      rw [if_neg (digitsMSF_ne_nil ip)]
      rw [if_neg (by simp)]
      rw [expectSep_cons _ _ _ (digitsMSF_ne_nil ip)]
      dsimp only
      rw [hfrac]
      dsimp only
      rw [if_neg hfrdne, natFromDigits_digitsMSF, hstrip2]
  show parseNum (⟨(if neg then ['-'] else []) ++ renderNat ip ++
      '.' :: (if fr.isEmpty then ['0'] else fr.map digitChar)⟩ : String) = _
  unfold parseNum
  rw [show ((⟨(if neg then ['-'] else []) ++ renderNat ip ++
      '.' :: (if fr.isEmpty then ['0'] else fr.map digitChar)⟩ : String)).data =
      (if neg then ['-'] else []) ++ renderNat ip ++
      '.' :: (if fr.isEmpty then ['0'] else fr.map digitChar) from rfl]
  rw [hcore]
  dsimp only
  cases neg with
  | false => rfl
  | true =>
    rw [Bool.true_and] at hsign
    rw [hsign]
    rfl

/-- The head of an append whose left part has a head. -/
theorem head?_append_left (l l2 : List Char) (c : Char)
    (h : l.head? = some c) : (l ++ l2).head? = some c := by
  cases l with
  | nil => exact Option.noConfusion h
  | cons a t => exact h

/-- A cell starting with a digit character is not a missing-value spelling. -/
theorem isMissingCell_headDigit (s : String) (d : Nat)
    (hd : s.data.head? = some (digitChar d)) : isMissingCell s = false := by
  refine isMissingCell_eq_false _ ?_ ?_ ?_ ?_
  · exact ne_of_head _ _ _ _ hd rfl (digitChar_ne d '-' (by decide))
  · intro he
    rw [he] at hd
    exact Option.noConfusion hd
  · exact ne_of_head _ _ _ _ hd rfl (digitChar_ne d 'n' (by decide))
  · exact ne_of_head _ _ _ _ hd rfl (digitChar_ne d 'N' (by decide))

/-- A dash followed by more characters is not a missing-value spelling. -/
theorem isMissingCell_dashCons (l : List Char) (hl : l ≠ []) :
    isMissingCell ⟨'-' :: l⟩ = false := by
  refine isMissingCell_eq_false _ ?_ ?_ ?_ ?_
  · show ('-' :: l) ≠ ['-']
    intro he
    injection he with h1 h2
    exact hl h2
  · show ('-' :: l) ≠ []
    simp
  · show ('-' :: l) ≠ ['n', 'a', 'n']
    intro he
    injection he with h1 h2
    exact absurd h1 (by decide)
  · show ('-' :: l) ≠ ['N', 'a', 'N']
    intro he
    injection he with h1 h2
    exact absurd h1 (by decide)

/-- The rendering of a well-formed timestamp starts with a digit. -/
theorem renderTime_head (y mo dd h mi s : Nat) :
    ∃ d, (renderValue (.vTime y mo dd h mi s)).data.head? =
      some (digitChar d) := by
  rcases List.exists_cons_of_ne_nil (padDigits_ne_nil 4 y) with ⟨d0, ds0, hds⟩
  refine ⟨d0, ?_⟩
  show ((((((padDigits 4 y).map digitChar ++ _) ++ _) ++ _) ++ _) ++ _).head? = _
  refine head?_append_left _ _ _ (head?_append_left _ _ _
    (head?_append_left _ _ _ (head?_append_left _ _ _
      (head?_append_left _ _ _ ?_))))
  rw [hds]
  rfl

/-- Coercing the rendering of a well-formed value recovers the value: the
per-unit cell grammar round-trips. -/
theorem coerce_renderValue (u : String) (v : Value) (hok : valueOk u v = true) :
    coerce u (renderValue v) = some v := by
  cases v with
  | vText s =>
    cases huc : unitClass u with
    | text => simp [coerce, huc, renderValue]
    | datetime => simp [valueOk, huc] at hok
    | onoff => simp [valueOk, huc] at hok
    | num => simp [valueOk, huc] at hok
  | vBool b =>
    cases huc : unitClass u with
    | text => simp [valueOk, huc] at hok
    | datetime => simp [valueOk, huc] at hok
    | onoff => cases b <;> simp [coerce, huc, renderValue]
    | num => simp [valueOk, huc] at hok
  | vMissing =>
    cases huc : unitClass u with
    | text => simp [valueOk, huc] at hok
    | datetime => simp [coerce, huc, renderValue, isMissingCell]
    | onoff => simp [coerce, huc, renderValue, isMissingCell]
    | num => simp [coerce, huc, renderValue, isMissingCell]
  | vTime y mo dd h mi s =>
    cases huc : unitClass u with
    | text => simp [valueOk, huc] at hok
    | onoff => simp [valueOk, huc] at hok
    | num => simp [valueOk, huc] at hok
    | datetime =>
      rcases renderTime_head y mo dd h mi s with ⟨d0, hd0⟩
      have hm : isMissingCell (renderValue (.vTime y mo dd h mi s)) = false :=
        isMissingCell_headDigit _ d0 hd0
      simp only [coerce, huc, hm, Bool.false_eq_true, if_false]
      exact parseTime_render y mo dd h mi s
  | vNum neg ip fr =>
    cases huc : unitClass u with
    | text => simp [valueOk, huc] at hok
    | onoff => simp [valueOk, huc] at hok
    | datetime => simp [valueOk, huc] at hok
    | num =>
      have hok2 := hok
      simp only [valueOk, huc, Bool.and_eq_true, decide_eq_true_eq, beq_iff_eq,
        Bool.not_eq_true'] at hok2
      obtain ⟨⟨hfr, hstrip⟩, hsign⟩ := hok2
      have hm : isMissingCell (renderValue (.vNum neg ip fr)) = false := by
        cases neg with
        | true =>
          show isMissingCell ⟨'-' :: (renderNat ip ++
            '.' :: (if fr.isEmpty then ['0'] else fr.map digitChar))⟩ = false
          refine isMissingCell_dashCons _ ?_
          intro hc
          rcases List.append_eq_nil.1 hc with ⟨h1, _⟩
          exact digitsMSF_ne_nil ip (List.map_eq_nil_iff.1 h1)
        | false =>
          rcases List.exists_cons_of_ne_nil (digitsMSF_ne_nil ip) with
            ⟨d0, ds0, hds⟩
          refine isMissingCell_headDigit _ d0 ?_
          show ((digitsMSF ip).map digitChar ++
            '.' :: (if fr.isEmpty then ['0'] else fr.map digitChar)).head? = _
          rw [hds]
          rfl
      simp only [coerce, huc, hm, Bool.false_eq_true, if_false]
      exact parseNum_render neg ip fr hfr hstrip hsign

/-! Names and markers on the writer side. -/

/-- A character allowed in a table name on the round trip: not whitespace,
not the separator, not the transposition star. -/
abbrev safeChar (c : Char) : Prop := isWS c = false ∧ c ≠ ';' ∧ c ≠ '*'

/-- A name that survives marker extraction unchanged. -/
abbrev safeName (s : String) : Prop := s.data ≠ [] ∧ ∀ c ∈ s.data, safeChar c

/-- A cell that cannot be mistaken for a marker or an empty cell. -/
abbrev notMarkerCell (s : String) : Prop := s ≠ "" ∧ s.data.head? ≠ some '*'

/-- Taking while a predicate holds of every element is the identity. -/
theorem takeWhile_all (p : Char → Bool) (l : List Char)
    (h : ∀ c ∈ l, p c = true) : l.takeWhile p = l := by
  induction l with
  | nil => rfl
  | cons c t ih =>
    rw [List.takeWhile_cons, h c (List.mem_cons_self _ _)]
    rw [ih fun c2 h2 => h c2 (List.mem_cons_of_mem _ h2)]
    rfl

/-- Dropping while a predicate fails of every element is the identity. -/
theorem dropWhile_none (p : Char → Bool) (l : List Char)
    (h : ∀ c ∈ l, p c = false) : l.dropWhile p = l := by
  cases l with
  | nil => rfl
  | cons c t =>
    rw [List.dropWhile_cons, h c (List.mem_cons_self _ _)]
    rfl

/-- Trimming a string of non-whitespace characters is the identity. -/
theorem trimList_id (l : List Char) (h : ∀ c ∈ l, isWS c = false) :
    trimList l = l := by
  unfold trimList
  rw [dropWhile_none _ _ h]
  rw [dropWhile_none _ _ fun c hc => h c (List.mem_reverse.1 hc)]
  exact List.reverse_reverse l

/-- Extracting the name from a two-star marker cell recovers the text after
the stars when it has no whitespace and no separator. -/
theorem markerName_drop (cell : String) (s : String)
    (hdata : cell.data = '*' :: '*' :: s.data)
    (hchars : ∀ c ∈ s.data, isWS c = false ∧ c ≠ ';') :
    markerName 2 cell = s := by
  unfold markerName strDropChars takeUntilSemi strTrim
  apply strMk_eq
  show trimList ((cell.data.drop 2).takeWhile fun c => c != ';') = s.data
  rw [hdata]
  show trimList (s.data.takeWhile fun c => c != ';') = s.data
  rw [takeWhile_all _ _ fun c hc => by
    simpa [bne_iff_ne] using (hchars c hc).2]
  exact trimList_id _ fun c hc => (hchars c hc).1

/-- Splitting the star off a star-free name leaves it unchanged. -/
theorem stripStar_no_star (s : String) (h : ∀ c ∈ s.data, c ≠ '*') :
    stripStar s = (s, false) := by
  unfold stripStar
  rw [if_neg]
  intro hc
  rcases List.eq_nil_or_concat s.data with hnil | ⟨l2, a, hconcat⟩
  · rw [hnil] at hc
    exact Option.noConfusion hc
  · rw [List.concat_eq_append] at hconcat
    rw [hconcat, List.getLast?_concat] at hc
    refine h a ?_ (Option.some.inj hc)
    rw [hconcat]
    exact List.mem_append_right _ (List.mem_singleton.2 rfl)

/-- Splitting the star off a starred name recovers the bare name and the
transposition flag. -/
theorem stripStar_star (s : String) : stripStar (s ++ "*") = (s, true) := by
  unfold stripStar
  rw [if_pos]
  · show ((⟨(s.data ++ ['*']).dropLast⟩ : String), true) = (s, true)
    rw [List.dropLast_concat]
  · show (s.data ++ ['*']).getLast? = some '*'
    exact List.getLast?_concat _

/-- A row whose first cell spells two stars, then a non-star character, is a
table marker row. -/
theorem rowKind_table_marker (cell : String) (rest : Row) (c : Char)
    (t : List Char) (hdata : cell.data = '*' :: '*' :: c :: t) (hc : c ≠ '*') :
    rowKind (cell :: rest) = .table := by
  have hfc : firstCell (cell :: rest) = cell := rfl
  unfold rowKind
  rw [hfc]
  have h3 : strStartsWith "***" cell = false := by
    unfold strStartsWith
    rw [hdata]
    show (('*' == '*') && (('*' == '*') && (('*' == c) &&
      List.isPrefixOf [] t))) = false
    have hcc : ('*' == c) = false := beq_eq_false_iff_ne.2 (Ne.symm hc)
    simp [hcc]
  have h2 : strStartsWith "**" cell = true := by
    unfold strStartsWith
    rw [hdata]
    rfl
  rw [h3, h2]
  rfl

/-- A row whose first cell is non-empty and does not start with a star is a
plain continuation row. -/
theorem rowKind_plain_of (c0 : String) (rest : Row) (hne : c0 ≠ "")
    (hhead : c0.data.head? ≠ some '*') : rowKind (c0 :: rest) = .plain := by
  have hfc : firstCell (c0 :: rest) = c0 := rfl
  have hd : ∃ c t, c0.data = c :: t ∧ c ≠ '*' := by
    cases hcd : c0.data with
    | nil =>
      exact absurd (strMk_eq _ _ hcd.symm).symm hne
    | cons c t =>
      refine ⟨c, t, rfl, fun he => hhead ?_⟩
      rw [hcd, he]
      rfl
  rcases hd with ⟨c, t, hcd, hc⟩
  unfold rowKind
  rw [hfc]
  have h3 : strStartsWith "***" c0 = false := by
    unfold strStartsWith
    rw [hcd]
    show (('*' == c) && List.isPrefixOf ['*', '*'] t) = false
    have hcc : ('*' == c) = false := beq_eq_false_iff_ne.2 (Ne.symm hc)
    simp [hcc]
  have h2 : strStartsWith "**" c0 = false := by
    unfold strStartsWith
    rw [hcd]
    show (('*' == c) && List.isPrefixOf ['*'] t) = false
    have hcc : ('*' == c) = false := beq_eq_false_iff_ne.2 (Ne.symm hc)
    simp [hcc]
  have hbl : isBlankRow (c0 :: rest) = false := by
    unfold isBlankRow
    show (decide (c0 = "") && List.all rest fun c => decide (c = "")) = false
    simp [hne]
  rw [h3, h2, hbl]
  rfl

/-! The splitter on an encoded table grid: one marker row followed by plain
rows yields a single TABLE span covering the whole grid. -/

/-- A run of plain rows extends the open non-blank span to its end. -/
theorem splitGo_plainRun (body : List Row) :
    ∀ (i : Nat) (done : List Span) (sp : Span),
      (∀ r ∈ body, rowKind r = .plain) → sp.btype ≠ .BLANK →
      splitGo i ⟨done, some sp, true⟩ body =
        (⟨sp.btype, sp.name, sp.start, sp.stop + body.length⟩ :: done).reverse := by
  induction body with
  | nil =>
    intro i done sp hplain hbt
    show (pushCur ⟨done, some sp, true⟩).reverse = _
    rw [pushCur]
    rfl
  | cons r rest ih =>
    intro i done sp hplain hbt
    have hr : rowKind r = .plain := hplain r (List.mem_cons_self _ _)
    have hstep : stepRow i ⟨done, some sp, true⟩ r =
        ⟨done, some (extendSpan sp), true⟩ := by
      simp [stepRow, hr, hbt]
    show splitGo (i + 1) (stepRow i ⟨done, some sp, true⟩ r) rest = _
    rw [hstep]
    rw [ih (i + 1) done (extendSpan sp)
      (fun r2 h2 => hplain r2 (List.mem_cons_of_mem _ h2)) hbt]
    show (⟨sp.btype, sp.name, sp.start, (sp.stop + 1) + rest.length⟩ :: done).reverse = _
    have : sp.stop + 1 + rest.length = sp.stop + (rest.length + 1) := by omega
    rw [this]
    rfl

/-- Splitting a grid made of one table marker row and plain body rows yields
exactly one TABLE span covering the grid. -/
theorem splitBlocks_single (r0 : Row) (body : List Row)
    (h0 : rowKind r0 = .table) (hb : ∀ r ∈ body, rowKind r = .plain) :
    splitBlocks (r0 :: body) =
      [⟨.TABLE, markerName 2 (firstCell r0), 0, 1 + body.length⟩] := by
  show splitGo 1 (stepRow 0 ⟨[], none, false⟩ r0) body = _
  have hstep : stepRow 0 ⟨[], none, false⟩ r0 =
      ⟨[], some (openSpan .TABLE (markerName 2 (firstCell r0)) 0), true⟩ := by
    simp [stepRow, h0, pushCur]
  rw [hstep, splitGo_plainRun body 1 [] _ hb (by intro hc; exact BlockType.noConfusion hc)]
  rfl

/-! Destination cells on the round trip. -/

/-- Splitting a space-free character run yields the run itself. -/
theorem splitSp_nospace (l : List Char) :
    ∀ acc, (∀ c ∈ l, c ≠ ' ') → splitSp l acc = [acc.reverse ++ l] := by
  induction l with
  | nil => intro acc h; simp [splitSp]
  | cons c cs ih =>
    intro acc h
    unfold splitSp
    rw [if_neg (h c (List.mem_cons_self _ _))]
    rw [ih (c :: acc) fun c2 h2 => h c2 (List.mem_cons_of_mem _ h2)]
    rw [List.reverse_cons, List.append_assoc]
    rfl

/-- Splitting a non-empty space-free destination cell is the identity. -/
theorem splitSpaces_single (d : String) (hne : d ≠ "")
    (hsp : ∀ c ∈ d.data, c ≠ ' ') : splitSpaces d = [d] := by
  unfold splitSpaces
  rw [splitSp_nospace d.data [] hsp]
  show List.filter _ [(⟨d.data⟩ : String)] = [d]
  have hd : (⟨d.data⟩ : String) = d := strMk_eq _ _ rfl
  rw [hd]
  simp [hne]

/-- Re-splitting clean destination cells is the identity. -/
theorem flatMap_splitSpaces (dests : List String)
    (h : ∀ d ∈ dests, d ≠ "" ∧ ∀ c ∈ d.data, c ≠ ' ') :
    dests.flatMap splitSpaces = dests := by
  induction dests with
  | nil => rfl
  | cons d rest ih =>
    rcases h d (List.mem_cons_self _ _) with ⟨h1, h2⟩
    rw [List.flatMap_cons, splitSpaces_single d h1 h2,
      ih fun d2 hd2 => h d2 (List.mem_cons_of_mem _ hd2)]
    rfl

/-- Deduplicating an already duplicate-free list not meeting the seen set is
the identity. -/
theorem dedupAcc_nodup_id :
    ∀ (l seen : List String), l.Nodup → (∀ x ∈ l, x ∉ seen) →
      dedupAcc l seen = l := by
  intro l
  induction l with
  | nil => intro seen _ _; rfl
  | cons a rest ih =>
    intro seen hnd hseen
    unfold dedupAcc
    rw [if_neg (hseen a (List.mem_cons_self _ _))]
    rw [ih (a :: seen) (List.nodup_cons.1 hnd).2]
    intro x hx hmem
    rcases List.mem_cons.1 hmem with rfl | h2
    · exact (List.nodup_cons.1 hnd).1 hx
    · exact hseen x (List.mem_cons_of_mem _ hx) h2

/-- Decoding clean destination cells back gives the same destinations. -/
theorem parseDestinations_id (dests : List String) (hne : dests ≠ [])
    (hnd : dests.Nodup) (h : ∀ d ∈ dests, d ≠ "" ∧ ∀ c ∈ d.data, c ≠ ' ') :
    parseDestinations dests = dests := by
  unfold parseDestinations
  rw [flatMap_splitSpaces dests h]
  rw [if_neg hne]
  exact dedupAcc_nodup_id dests [] hnd (by simp)

/-! Transposition of rectangular cell blocks. -/

/-- Transposing to width zero gives no columns. -/
theorem colwise_zero (rows : List (List String)) : colwise 0 rows = [] := by
  induction rows with
  | nil => rfl
  | cons r rest ih =>
    show List.zipWith List.cons r (colwise 0 rest) = []
    rw [ih]
    exact List.zipWith_nil_right

/-- Element structure of a column-prepending zip. -/
theorem mem_zipWith_cons (r : List String) :
    ∀ (c : List String) (m : List (List String)),
      r ∈ List.zipWith List.cons c m → ∃ a b, a ∈ c ∧ b ∈ m ∧ r = a :: b := by
  intro c
  induction c with
  | nil => intro m h; simp at h
  | cons a c2 ih =>
    intro m h
    cases m with
    | nil => simp at h
    | cons b m2 =>
      rcases List.mem_cons.1 h with rfl | h2
      · exact ⟨a, b, List.mem_cons_self _ _, List.mem_cons_self _ _, rfl⟩
      · rcases ih m2 h2 with ⟨a2, b2, ha, hb, heq⟩
        exact ⟨a2, b2, List.mem_cons_of_mem _ ha, List.mem_cons_of_mem _ hb, heq⟩

/-- Row-forming a block of equal-height columns yields that many rows, each
as wide as there are columns. -/
theorem rowwise_length (cols : List (List String)) (n : Nat)
    (h : ∀ c ∈ cols, c.length = n) :
    (rowwise n cols).length = n ∧ ∀ r ∈ rowwise n cols, r.length = cols.length := by
  induction cols with
  | nil =>
    refine ⟨by simp [rowwise], ?_⟩
    intro r hr
    rw [List.eq_of_mem_replicate hr]
    rfl
  | cons c rest ih =>
    have ih2 := ih fun c2 h2 => h c2 (List.mem_cons_of_mem _ h2)
    have hc : c.length = n := h c (List.mem_cons_self _ _)
    have hrw : rowwise n (c :: rest) = List.zipWith List.cons c (rowwise n rest) := rfl
    constructor
    · rw [hrw, List.length_zipWith, ih2.1, hc]
      exact Nat.min_self n
    · intro r hr
      rw [hrw] at hr
      rcases mem_zipWith_cons r c (rowwise n rest) hr with ⟨a, b, _, hb, heq⟩
      rw [heq]
      show b.length + 1 = rest.length + 1
      rw [ih2.2 b hb]

/-- Column-splitting after prepending one cell to every row peels off the
first column. -/
theorem colwise_cons (c : List String) :
    ∀ (m : List (List String)) (k : Nat), c.length = m.length →
      colwise (k + 1) (List.zipWith List.cons c m) = c :: colwise k m := by
  induction c with
  | nil =>
    intro m k hlen
    cases m with
    | nil =>
      show colwise (k + 1) [] = [] :: colwise k []
      show List.replicate (k + 1) [] = [] :: List.replicate k []
      rfl
    | cons b m2 => simp at hlen
  | cons a c2 ih =>
    intro m k hlen
    cases m with
    | nil => simp at hlen
    | cons b m2 =>
      have hlen2 : c2.length = m2.length := by
        simpa using hlen
      show colwise (k + 1) ((a :: b) :: List.zipWith List.cons c2 m2) = _
      show List.zipWith List.cons (a :: b)
        (colwise (k + 1) (List.zipWith List.cons c2 m2)) = _
      rw [ih m2 k hlen2]
      show (a :: c2) :: List.zipWith List.cons b (colwise k m2) = _
      rfl

/-- Transposing rows formed from equal-height columns recovers the
columns. -/
theorem colwise_rowwise (cols : List (List String)) (n : Nat)
    (h : ∀ c ∈ cols, c.length = n) :
    colwise cols.length (rowwise n cols) = cols := by
  induction cols with
  | nil => exact colwise_zero _
  | cons c rest ih =>
    have hrest := fun c2 h2 => h c2 (List.mem_cons_of_mem _ h2)
    have hc : c.length = n := h c (List.mem_cons_self _ _)
    show colwise (rest.length + 1) (rowwise n (c :: rest)) = c :: rest
    have hrw : rowwise n (c :: rest) = List.zipWith List.cons c (rowwise n rest) := rfl
    rw [hrw, colwise_cons c (rowwise n rest) rest.length
      (by rw [hc, (rowwise_length rest n hrest).1])]
    rw [ih hrest]

/-! Validity of a decoded table for the round trip: exactly the contents the
writer can lay out and the reader parses back unchanged. -/

/-- Bool-level guard for text values in the first column (their rendering is
the first cell of a data row and must not look like a marker or blank). -/
def textSafe : Value → Bool
  | .vText s => decide (s ≠ "") && decide (s.data.head? ≠ some '*')
  | _ => true

/-- Number of data rows of a column list (the height of its first column). -/
def numRows (cols : List (ColumnSchema × List Value)) : Nat :=
  ((cols.headD (⟨"", ""⟩, [])).2).length

/-- The first column's unit cell and rendered values must not look like
markers or blank cells, since they start the unit row and the data rows. -/
def firstColGuard : List (ColumnSchema × List Value) → Prop
  | [] => True
  | c :: _ => notMarkerCell c.1.unit ∧ ∀ v ∈ c.2, textSafe v = true

instance instDecFirstColGuard :
    (cols : List (ColumnSchema × List Value)) → Decidable (firstColGuard cols)
  | [] => isTrue trivial
  | c :: _ =>
    inferInstanceAs (Decidable (notMarkerCell c.1.unit ∧ ∀ v ∈ c.2, textSafe v = true))

/-- Modelled from the spec: a well-formed logical table content — a clean
name, clean unique destinations, uniquely and cleanly named columns of equal
height holding unit-conformant values (spec section 3 invariants). -/
abbrev ValidContent (nm : String) (dests : List String)
    (cols : List (ColumnSchema × List Value)) : Prop :=
  safeName nm ∧
  dests ≠ [] ∧ dests.Nodup ∧ (∀ d ∈ dests, d ≠ "" ∧ ∀ c ∈ d.data, c ≠ ' ') ∧
  (∀ c ∈ cols, safeName c.1.name ∧ ∀ v ∈ c.2, valueOk c.1.unit v = true) ∧
  (cols.map fun c => c.1.name).Nodup ∧
  (∀ c ∈ cols, c.2.length = numRows cols) ∧
  firstColGuard cols

/-- A valid decoded table. -/
abbrev ValidTable (t : TypedTable) : Prop :=
  ValidContent t.name t.destinations t.columns

/-! The writer: encode a table back to the source cell-grid format. -/

/-- The name row: marker cell (with the transposition star when requested)
followed by the destination cells. -/
def renderRow0 (nm : String) (star : Bool) (dests : List String) : Row :=
  ("**" ++ nm ++ (if star then "*" else "")) :: dests

/-- The rendered cells of one column. -/
def colCells (c : ColumnSchema × List Value) : List String :=
  c.2.map renderValue

/-- Modelled from the spec: encode a table row-oriented — name row, header
row, unit row, data rows (spec 4.3, writer side). -/
def encodeRowGrid (nm : String) (dests : List String)
    (cols : List (ColumnSchema × List Value)) : Grid :=
  match cols with
  | [] => [renderRow0 nm false dests]
  | _ =>
    renderRow0 nm false dests :: (cols.map fun c => c.1.name) ::
      (cols.map fun c => c.1.unit) :: rowwise (numRows cols) (cols.map colCells)

/-- Modelled from the spec: encode a table transposed — starred name row,
then one row per column laid out as name, unit, values (spec 4.3). -/
def encodeTransposedGrid (nm : String) (dests : List String)
    (cols : List (ColumnSchema × List Value)) : Grid :=
  renderRow0 nm true dests :: cols.map fun c => c.1.name :: c.1.unit :: colCells c

/-- Encode a table in its own physical layout. -/
def encodeTable (t : TypedTable) : Grid :=
  if t.transposed then encodeTransposedGrid t.name t.destinations t.columns
  else encodeRowGrid t.name t.destinations t.columns

/-- Second components of enumerated pairs are list elements. -/
theorem snd_mem_of_enum {α : Type} (l : List α) (q : Nat × α)
    (h : q ∈ l.enum) : q.2 ∈ l := by
  have h2 := List.enum_map_snd l
  rw [← h2]
  exact List.mem_map_of_mem _ h

/-- Lenient coercion undoes rendering on well-formed values. -/
theorem coerceCell_renderValue (u : String) (v : Value)
    (hok : valueOk u v = true) : coerceCell u (renderValue v) = v := by
  unfold coerceCell
  rw [coerce_renderValue u v hok]
  rfl

/-- A decoded column of rendered cells is the original column. -/
theorem mkColumn_colCells (c : ColumnSchema × List Value)
    (hok : ∀ v ∈ c.2, valueOk c.1.unit v = true) :
    mkColumn c.1.name c.1.unit (colCells c) = c := by
  unfold mkColumn colCells
  rw [List.map_map]
  have : ∀ v ∈ c.2, (coerceCell c.1.unit ∘ renderValue) v = id v := fun v hv =>
    coerceCell_renderValue c.1.unit v (hok v hv)
  rw [List.map_congr_left this, List.map_id]

/-- No coercion issues arise from a column of rendered well-formed cells. -/
theorem colIssues_render (tname : String) (start j : Nat)
    (c : ColumnSchema × List Value)
    (hok : ∀ v ∈ c.2, valueOk c.1.unit v = true) :
    colIssues tname start j c.1.unit (colCells c) = [] := by
  unfold colIssues
  rw [List.filterMap_eq_nil_iff]
  intro p hp
  have hmem : p.2 ∈ colCells c := snd_mem_of_enum _ p hp
  rcases List.mem_map.1 hmem with ⟨v, hv, hrv⟩
  rw [← hrv, coerce_renderValue c.1.unit v (hok v hv)]
  rfl

/-- No coercion issues arise transposed either. -/
theorem colIssuesT_render (tname : String) (start j : Nat)
    (c : ColumnSchema × List Value)
    (hok : ∀ v ∈ c.2, valueOk c.1.unit v = true) :
    colIssuesT tname start j c.1.unit (colCells c) = [] := by
  unfold colIssuesT
  rw [List.filterMap_eq_nil_iff]
  intro p hp
  have hmem : p.2 ∈ colCells c := snd_mem_of_enum _ p hp
  rcases List.mem_map.1 hmem with ⟨v, hv, hrv⟩
  rw [← hrv, coerce_renderValue c.1.unit v (hok v hv)]
  rfl

/-- Decoding the encoded body of a non-empty row-oriented table recovers the
columns exactly, with no issues. -/
theorem decodeRowBody_encode (nm : String) (dests : List String)
    (cols : List (ColumnSchema × List Value))
    (hcolok : ∀ c ∈ cols, safeName c.1.name ∧ ∀ v ∈ c.2, valueOk c.1.unit v = true)
    (hnamend : (cols.map fun c => c.1.name).Nodup)
    (hlen : ∀ c ∈ cols, c.2.length = numRows cols) :
    decodeRowBody nm dests (cols.map fun c => c.1.name)
      (cols.map fun c => c.1.unit)
      (rowwise (numRows cols) (cols.map colCells)) 0 =
      (some ⟨nm, dests, false, cols⟩, []) := by
  have hcells : ∀ cc ∈ cols.map colCells, cc.length = numRows cols := by
    intro cc hcc
    rcases List.mem_map.1 hcc with ⟨c, hc, rfl⟩
    show (c.2.map renderValue).length = _
    rw [List.length_map]
    exact hlen c hc
  have hdatalen : ∀ r ∈ rowwise (numRows cols) (cols.map colCells),
      r.length = cols.length := by
    intro r hr
    have h2 := (rowwise_length (cols.map colCells) (numRows cols) hcells).2 r hr
    rwa [List.length_map] at h2
  have hul : (cols.map fun c => c.1.unit).length =
      (cols.map fun c => c.1.name).length := by
    rw [List.length_map, List.length_map]
  have hfind : (rowwise (numRows cols) (cols.map colCells)).findIdx?
      (fun r => r.length != (cols.map fun c => c.1.name).length) = none := by
    rw [List.findIdx?_eq_none_iff]
    intro r hr
    rw [List.length_map, hdatalen r hr]
    simp
  have hany : ((cols.map fun c => c.1.name).any fun c => c = "") = false := by
    rw [List.any_eq_false]
    intro x hx
    rcases List.mem_map.1 hx with ⟨c, hc, rfl⟩
    have hne : c.1.name ≠ "" := fun he => (hcolok c hc).1.1 (by rw [he])
    simp [hne]
  unfold decodeRowBody
  rw [if_neg (not_not_intro hul), hfind]
  dsimp only
  rw [hany]
  rw [if_neg Bool.false_ne_true]
  rw [if_pos hnamend]
  rw [List.zip_map']
  rw [List.length_map]
  have hcw := colwise_rowwise (cols.map colCells) (numRows cols) hcells
  rw [List.length_map] at hcw
  rw [hcw]
  rw [List.zip_map']
  have hcolsid : ∀ c ∈ cols,
      ((fun p => mkColumn p.1.1 p.1.2 p.2) ∘
        fun c => ((c.1.name, c.1.unit), colCells c)) c = id c := by
    intro c hc
    show mkColumn c.1.name c.1.unit (colCells c) = c
    exact mkColumn_colCells c (hcolok c hc).2
  rw [List.map_map, List.map_congr_left hcolsid, List.map_id]
  have hiss : ((cols.map fun c => ((c.1.name, c.1.unit), colCells c)).enum.flatMap
      fun q => colIssues nm 0 q.1 q.2.1.2 q.2.2) = [] := by
    rw [List.flatMap_eq_nil_iff]
    intro q hq
    have hmem := snd_mem_of_enum _ q hq
    rcases List.mem_map.1 hmem with ⟨c, hc, hgc⟩
    rw [← hgc]
    exact colIssues_render nm 0 q.1 c (hcolok c hc).2
  rw [hiss]

/-- Decoding the row-oriented encoding of valid table content recovers the
table exactly, with no issues. -/
theorem decodeTable_encodeRow (nm : String) (dests : List String)
    (cols : List (ColumnSchema × List Value)) (h : ValidContent nm dests cols) :
    decodeTable nm (encodeRowGrid nm dests cols) 0 =
      (some ⟨nm, dests, false, cols⟩, []) := by
  obtain ⟨hnm, hdne, hdnd, hdok, hcolok, hnamend, hlen, hguard⟩ := h
  have hstrip : stripStar nm = (nm, false) :=
    stripStar_no_star nm fun c hc => (hnm.2 c hc).2.2
  have hdest : parseDestinations dests = dests :=
    parseDestinations_id dests hdne hdnd hdok
  cases cols with
  | nil =>
    show decodeTable nm [renderRow0 nm false dests] 0 = _
    unfold decodeTable renderRow0
    rw [hstrip]
    simp only [Bool.false_eq_true, if_false, List.headD_cons, List.tail_cons]
    rw [hdest]
  | cons c0 crest =>
    show decodeTable nm (renderRow0 nm false dests ::
      ((c0 :: crest).map fun c => c.1.name) ::
      ((c0 :: crest).map fun c => c.1.unit) ::
      rowwise (numRows (c0 :: crest)) ((c0 :: crest).map colCells)) 0 = _
    unfold decodeTable renderRow0
    rw [hstrip]
    simp only [Bool.false_eq_true, if_false, List.headD_cons, List.tail_cons]
    rw [hdest]
    exact decodeRowBody_encode nm dests (c0 :: crest) hcolok hnamend hlen

/-- Decoding the encoded body of a transposed table recovers the columns
exactly, with no issues. -/
theorem decodeTransposedBody_encode (nm : String) (dests : List String)
    (cols : List (ColumnSchema × List Value))
    (hcolok : ∀ c ∈ cols, safeName c.1.name ∧ ∀ v ∈ c.2, valueOk c.1.unit v = true)
    (hnamend : (cols.map fun c => c.1.name).Nodup)
    (hlen : ∀ c ∈ cols, c.2.length = numRows cols) :
    decodeTransposedBody nm dests
      (cols.map fun c => c.1.name :: c.1.unit :: colCells c) 0 =
      (some ⟨nm, dests, true, cols⟩, []) := by
  have hfind1 : (cols.map fun c => c.1.name :: c.1.unit :: colCells c).findIdx?
      (fun r => decide (r.length < 2)) = none := by
    rw [List.findIdx?_eq_none_iff]
    intro r hr
    rcases List.mem_map.1 hr with ⟨c, hc, rfl⟩
    simp [List.length_cons]
  have hfind2 : (cols.map fun c => c.1.name :: c.1.unit :: colCells c).findIdx?
      (fun r => r.length !=
        (((cols.map fun c => c.1.name :: c.1.unit :: colCells c).headD []).length)) =
      none := by
    cases cols with
    | nil => rfl
    | cons c0 rest =>
      rw [List.findIdx?_eq_none_iff]
      intro r hr
      rcases List.mem_map.1 hr with ⟨c, hc, rfl⟩
      have hr1 : (c.1.name :: c.1.unit :: colCells c).length = c.2.length + 2 := by
        show (colCells c).length + 1 + 1 = c.2.length + 2
        show (c.2.map renderValue).length + 1 + 1 = c.2.length + 2
        rw [List.length_map]
      have hr2 : ((((c0 :: rest).map fun c => c.1.name :: c.1.unit :: colCells c).headD
          []).length) = c0.2.length + 2 := by
        show (c0.1.name :: c0.1.unit :: colCells c0).length = c0.2.length + 2
        show (colCells c0).length + 1 + 1 = c0.2.length + 2
        show (c0.2.map renderValue).length + 1 + 1 = c0.2.length + 2
        rw [List.length_map]
      rw [hr1, hr2, hlen c hc]
      show (numRows (c0 :: rest) + 2 != numRows (c0 :: rest) + 2) = false
      simp
  have hany : ((cols.map fun c => c.1.name :: c.1.unit :: colCells c).any
      fun r => r.headD "" = "") = false := by
    rw [List.any_eq_false]
    intro x hx
    rcases List.mem_map.1 hx with ⟨c, hc, rfl⟩
    have hne : c.1.name ≠ "" := fun he => (hcolok c hc).1.1 (by rw [he])
    simp [hne]
  have hnodup : ((cols.map fun c => c.1.name :: c.1.unit :: colCells c).map
      fun r => r.headD "").Nodup := by
    rw [List.map_map]
    exact hnamend
  unfold decodeTransposedBody
  rw [hfind1]
  dsimp only
  rw [hfind2]
  dsimp only
  rw [hany]
  rw [if_neg Bool.false_ne_true]
  rw [if_pos hnodup]
  have hcolsid : ∀ c ∈ cols,
      ((fun r : Row => mkColumn (r.headD "") (r.getD 1 "") (r.drop 2)) ∘
        fun c => c.1.name :: c.1.unit :: colCells c) c = id c := by
    intro c hc
    show mkColumn c.1.name c.1.unit (colCells c) = c
    exact mkColumn_colCells c (hcolok c hc).2
  rw [List.map_map, List.map_congr_left hcolsid, List.map_id]
  have hiss : ((cols.map fun c => c.1.name :: c.1.unit :: colCells c).enum.flatMap
      fun q => colIssuesT nm 0 q.1 (q.2.getD 1 "") (q.2.drop 2)) = [] := by
    rw [List.flatMap_eq_nil_iff]
    intro q hq
    have hmem := snd_mem_of_enum _ q hq
    rcases List.mem_map.1 hmem with ⟨c, hc, hgc⟩
    rw [← hgc]
    exact colIssuesT_render nm 0 q.1 c (hcolok c hc).2
  rw [hiss]

/-- Decoding the transposed encoding of valid table content recovers the
table exactly, flagged transposed, with no issues. -/
theorem decodeTable_encodeTransposed (nm : String) (dests : List String)
    (cols : List (ColumnSchema × List Value)) (h : ValidContent nm dests cols) :
    decodeTable (nm ++ "*") (encodeTransposedGrid nm dests cols) 0 =
      (some ⟨nm, dests, true, cols⟩, []) := by
  obtain ⟨hnm, hdne, hdnd, hdok, hcolok, hnamend, hlen, hguard⟩ := h
  have hdest : parseDestinations dests = dests :=
    parseDestinations_id dests hdne hdnd hdok
  show decodeTable (nm ++ "*") (renderRow0 nm true dests ::
    (cols.map fun c => c.1.name :: c.1.unit :: colCells c)) 0 = _
  unfold decodeTable renderRow0
  rw [stripStar_star]
  simp only [eq_self_iff_true, if_true, List.headD_cons, List.tail_cons]
  rw [hdest]
  exact decodeTransposedBody_encode nm dests cols hcolok hnamend hlen

/-! From an encoded grid to a full parse run: the splitter classifies the
name row as a table marker and every body row as a plain continuation row,
so the whole grid is one TABLE span, which the stream then decodes. -/

/-- A string with a known head character is non-empty. -/
theorem ne_empty_of_head (s : String) (c : Char) (h : s.data.head? = some c) :
    s ≠ "" := by
  intro he
  have hd : s.data = [] := by rw [he]
  rw [hd] at h
  exact Option.noConfusion h

/-- The head of a list avoiding a character is not that character. -/
theorem head?_ne_of_all (l : List Char) (a : Char) (hne : l ≠ [])
    (h : ∀ c ∈ l, c ≠ a) : l.head? ≠ some a := by
  cases l with
  | nil => exact absurd rfl hne
  | cons c t =>
    intro hc
    exact h c (List.mem_cons_self _ _) (Option.some.inj hc)

/-- A rendered guarded value is not empty and does not start with a star. -/
theorem renderValue_notMarker (v : Value) (hts : textSafe v = true) :
    renderValue v ≠ "" ∧ (renderValue v).data.head? ≠ some '*' := by
  cases v with
  | vText s =>
    have hts2 : (decide (s ≠ "") && decide (s.data.head? ≠ some '*')) = true := hts
    rw [Bool.and_eq_true] at hts2
    exact ⟨of_decide_eq_true hts2.1, of_decide_eq_true hts2.2⟩
  | vBool b => cases b <;> exact ⟨by decide, by decide⟩
  | vMissing => exact ⟨by decide, by decide⟩
  | vNum neg ip fr =>
    cases neg with
    | true =>
      have hh : (renderValue (.vNum true ip fr)).data.head? = some '-' := rfl
      refine ⟨ne_empty_of_head _ _ hh, ?_⟩
      rw [hh]
      decide
    | false =>
      rcases head?_digits_append (digitsMSF ip)
        ('.' :: (if fr.isEmpty then ['0'] else fr.map digitChar))
        (digitsMSF_ne_nil ip) with ⟨d, hd⟩
      have hh : (renderValue (.vNum false ip fr)).data.head? =
          some (digitChar d) := by
        show ((digitsMSF ip).map digitChar ++
          '.' :: (if fr.isEmpty then ['0'] else fr.map digitChar)).head? =
          some (digitChar d)
        exact hd
      refine ⟨ne_empty_of_head _ _ hh, ?_⟩
      rw [hh]
      intro hc
      exact digitChar_ne d '*' (by decide) (Option.some.inj hc)
  | vTime y mo dd h mi s =>
    rcases renderTime_head y mo dd h mi s with ⟨d, hd⟩
    refine ⟨ne_empty_of_head _ _ hd, ?_⟩
    rw [hd]
    intro hc
    exact digitChar_ne d '*' (by decide) (Option.some.inj hc)

/-- The name row of a row-oriented encoding is a table marker named `nm`. -/
theorem renderRow0_marker_row (nm : String) (dests : List String)
    (h : safeName nm) :
    rowKind (renderRow0 nm false dests) = .table ∧
    markerName 2 (firstCell (renderRow0 nm false dests)) = nm := by
  have hcell : ("**" ++ nm ++ (if false = true then "*" else "")).data
      = '*' :: '*' :: nm.data := by
    simp only [Bool.false_eq_true, if_false]
    show (['*', '*'] ++ nm.data) ++ ([] : List Char) = '*' :: '*' :: nm.data
    rw [List.append_nil]
    rfl
  rcases List.exists_cons_of_ne_nil h.1 with ⟨c, t, hct⟩
  have hc : c ≠ '*' :=
    (h.2 c (by rw [hct]; exact List.mem_cons_self _ _)).2.2
  constructor
  · refine rowKind_table_marker _ dests c t ?_ hc
    rw [hcell, hct]
  · exact markerName_drop _ nm hcell
      (fun c2 hc2 => ⟨(h.2 c2 hc2).1, (h.2 c2 hc2).2.1⟩)

/-- The name row of a transposed encoding is a table marker whose raw span
name is the table name with the transposition star appended. -/
theorem renderRow0_marker_transposed (nm : String) (dests : List String)
    (h : safeName nm) :
    rowKind (renderRow0 nm true dests) = .table ∧
    markerName 2 (firstCell (renderRow0 nm true dests)) = nm ++ "*" := by
  have hcell : ("**" ++ nm ++ (if true = true then "*" else "")).data
      = '*' :: '*' :: (nm ++ "*").data := by
    simp only [eq_self_iff_true, if_true]
    show (['*', '*'] ++ nm.data) ++ ['*'] = '*' :: '*' :: (nm.data ++ ['*'])
    simp only [List.append_assoc, List.cons_append, List.nil_append]
  rcases List.exists_cons_of_ne_nil h.1 with ⟨c, t, hct⟩
  have hc : c ≠ '*' :=
    (h.2 c (by rw [hct]; exact List.mem_cons_self _ _)).2.2
  have hchars : ∀ c2 ∈ (nm ++ "*").data, isWS c2 = false ∧ c2 ≠ ';' := by
    intro c2 hc2
    have hd : (nm ++ "*").data = nm.data ++ ['*'] := rfl
    rw [hd] at hc2
    rcases List.mem_append.1 hc2 with h1 | h2
    · exact ⟨(h.2 c2 h1).1, (h.2 c2 h1).2.1⟩
    · rw [List.mem_singleton.1 h2]
      exact ⟨by decide, by decide⟩
  constructor
  · refine rowKind_table_marker _ dests c (t ++ ['*']) ?_ hc
    rw [hcell]
    show '*' :: '*' :: (nm.data ++ ['*']) = '*' :: '*' :: (c :: (t ++ ['*']))
    rw [hct]
    rfl
  · exact markerName_drop _ (nm ++ "*") hcell hchars

/-- The splitter on a row-oriented encoding: one TABLE span named `nm`
covering the whole grid. -/
theorem splitBlocks_encodeRow (nm : String) (dests : List String)
    (cols : List (ColumnSchema × List Value)) (h : ValidContent nm dests cols) :
    splitBlocks (encodeRowGrid nm dests cols) =
      [⟨.TABLE, nm, 0, (encodeRowGrid nm dests cols).length⟩] := by
  obtain ⟨hnm, hdne, hdnd, hdok, hcolok, hnamend, hlen, hguard⟩ := h
  rcases renderRow0_marker_row nm dests hnm with ⟨hkind, hname⟩
  cases cols with
  | nil =>
    show splitBlocks (renderRow0 nm false dests :: []) =
      [⟨.TABLE, nm, 0, (renderRow0 nm false dests :: []).length⟩]
    rw [splitBlocks_single _ _ hkind
      (fun r hr => absurd hr (List.not_mem_nil r)), hname]
    rfl
  | cons c0 crest =>
    have hc0 := hcolok c0 (List.mem_cons_self _ _)
    have hplain : ∀ r ∈ ((c0 :: crest).map fun c => c.1.name) ::
        ((c0 :: crest).map fun c => c.1.unit) ::
        rowwise (numRows (c0 :: crest)) ((c0 :: crest).map colCells),
        rowKind r = .plain := by
      intro r hr
      rcases List.mem_cons.1 hr with rfl | hr2
      · show rowKind (c0.1.name :: crest.map fun c => c.1.name) = .plain
        refine rowKind_plain_of _ _ ?_ ?_
        · intro he
          exact hc0.1.1 (by rw [he])
        · exact head?_ne_of_all _ _ hc0.1.1 fun c hcc => (hc0.1.2 c hcc).2.2
      · rcases List.mem_cons.1 hr2 with rfl | hr3
        · show rowKind (c0.1.unit :: crest.map fun c => c.1.unit) = .plain
          exact rowKind_plain_of _ _ hguard.1.1 hguard.1.2
        · have hrw : rowwise (numRows (c0 :: crest)) ((c0 :: crest).map colCells) =
              List.zipWith List.cons (colCells c0)
                (rowwise (numRows (c0 :: crest)) (crest.map colCells)) := rfl
          rw [hrw] at hr3
          rcases mem_zipWith_cons r (colCells c0) _ hr3 with ⟨a, b, ha, hb, rfl⟩
          rcases List.mem_map.1 ha with ⟨v, hv, rfl⟩
          rcases renderValue_notMarker v (hguard.2 v hv) with ⟨hne, hhd⟩
          exact rowKind_plain_of _ _ hne hhd
    show splitBlocks (renderRow0 nm false dests ::
        ((c0 :: crest).map fun c => c.1.name) ::
        ((c0 :: crest).map fun c => c.1.unit) ::
        rowwise (numRows (c0 :: crest)) ((c0 :: crest).map colCells)) =
      [⟨.TABLE, nm, 0, (renderRow0 nm false dests ::
        ((c0 :: crest).map fun c => c.1.name) ::
        ((c0 :: crest).map fun c => c.1.unit) ::
        rowwise (numRows (c0 :: crest)) ((c0 :: crest).map colCells)).length⟩]
    rw [splitBlocks_single _ _ hkind hplain, hname]
    simp [List.length_cons, Nat.add_comm]

/-- The splitter on a transposed encoding: one TABLE span, the raw span name
carrying the transposition star, covering the whole grid. -/
theorem splitBlocks_encodeTransposed (nm : String) (dests : List String)
    (cols : List (ColumnSchema × List Value)) (h : ValidContent nm dests cols) :
    splitBlocks (encodeTransposedGrid nm dests cols) =
      [⟨.TABLE, nm ++ "*", 0, (encodeTransposedGrid nm dests cols).length⟩] := by
  obtain ⟨hnm, hdne, hdnd, hdok, hcolok, hnamend, hlen, hguard⟩ := h
  rcases renderRow0_marker_transposed nm dests hnm with ⟨hkind, hname⟩
  have hplain : ∀ r ∈ cols.map fun c => c.1.name :: c.1.unit :: colCells c,
      rowKind r = .plain := by
    intro r hr
    rcases List.mem_map.1 hr with ⟨c, hc, rfl⟩
    have hcok := (hcolok c hc).1
    refine rowKind_plain_of _ _ ?_ ?_
    · intro he
      exact hcok.1 (by rw [he])
    · exact head?_ne_of_all _ _ hcok.1 fun c2 hcc => (hcok.2 c2 hcc).2.2
  show splitBlocks (renderRow0 nm true dests ::
      cols.map fun c => c.1.name :: c.1.unit :: colCells c) =
    [⟨.TABLE, nm ++ "*", 0, (renderRow0 nm true dests ::
      cols.map fun c => c.1.name :: c.1.unit :: colCells c).length⟩]
  rw [splitBlocks_single _ _ hkind hplain, hname]
  simp [List.length_cons, Nat.add_comm]

/-- A grid the splitter sees as one whole-grid TABLE span parses leniently to
exactly the table its span decodes to, with no issues. -/
theorem parse_single_table (g : Grid) (nm2 : String) (t : TypedTable)
    (hsp : splitBlocks g = [⟨.TABLE, nm2, 0, g.length⟩])
    (hdec : decodeTable nm2 g 0 = (some t, [])) :
    readGridLenient noFilter g = ([(.TABLE, .table t)], []) := by
  have hrows : spanRows g ⟨.TABLE, nm2, 0, g.length⟩ = g := by
    unfold spanRows
    rw [List.drop_zero, Nat.sub_zero, List.take_length]
  have hds : decodeSpan g ⟨.TABLE, nm2, 0, g.length⟩ =
      (some (.TABLE, .table t), []) := by
    unfold decodeSpan
    dsimp only
    rw [hrows, hdec]
    rfl
  have hk : keepSpan noFilter (⟨.TABLE, nm2, 0, g.length⟩ : Span) = true := rfl
  unfold readGridLenient parseBlocks parseIssues
  rw [hsp]
  simp only [List.flatMap_cons, List.flatMap_nil, List.append_nil, hk,
    eq_self_iff_true, if_true, hds]
  rfl

/-- A lenient unfiltered run on the row-oriented encoding of valid content
emits exactly the decoded table, with no issues. -/
theorem readGrid_encodeRow (nm : String) (dests : List String)
    (cols : List (ColumnSchema × List Value)) (h : ValidContent nm dests cols) :
    readGridLenient noFilter (encodeRowGrid nm dests cols) =
      ([(.TABLE, .table ⟨nm, dests, false, cols⟩)], []) :=
  parse_single_table _ nm _ (splitBlocks_encodeRow nm dests cols h)
    (decodeTable_encodeRow nm dests cols h)

/-- A lenient unfiltered run on the transposed encoding of valid content
emits exactly the decoded table, flagged transposed, with no issues. -/
theorem readGrid_encodeTransposed (nm : String) (dests : List String)
    (cols : List (ColumnSchema × List Value)) (h : ValidContent nm dests cols) :
    readGridLenient noFilter (encodeTransposedGrid nm dests cols) =
      ([(.TABLE, .table ⟨nm, dests, true, cols⟩)], []) :=
  parse_single_table _ (nm ++ "*") _ (splitBlocks_encodeTransposed nm dests cols h)
    (decodeTable_encodeTransposed nm dests cols h)

/-! Claims C4 and C7: transposed/row-oriented equivalence and the
encode-decode round trip, over full parse runs. -/

/-- A small concrete table content used to witness the round-trip claims:
a text column and a numeric column of one data row each. -/
def sampleCols : List (ColumnSchema × List Value) :=
  [(⟨"place", "text"⟩, [.vText "home"]), (⟨"distance", "km"⟩, [.vNum false 0 []])]

/-- C4: for every valid table content, a full parse of the transposed
rendition yields a TypedTable equal to the one a full parse of the
row-oriented rendition yields — same name, destinations and columns —
differing only in the transposed flag, and neither run raises an Issue. -/
theorem c4_transposed_equiv (nm : String) (dests : List String)
    (cols : List (ColumnSchema × List Value)) (h : ValidContent nm dests cols) :
    ∃ tr tt : TypedTable,
      readGridLenient noFilter (encodeRowGrid nm dests cols) =
        ([(.TABLE, .table tr)], []) ∧
      readGridLenient noFilter (encodeTransposedGrid nm dests cols) =
        ([(.TABLE, .table tt)], []) ∧
      tr.transposed = false ∧ tt.transposed = true ∧
      tt.name = tr.name ∧ tt.destinations = tr.destinations ∧
      tt.columns = tr.columns :=
  ⟨⟨nm, dests, false, cols⟩, ⟨nm, dests, true, cols⟩,
    readGrid_encodeRow nm dests cols h,
    readGrid_encodeTransposed nm dests cols h,
    rfl, rfl, rfl, rfl, rfl⟩

/-- Witness for C4 at the sample content: the hypothesis holds and the two
renditions decode to the same table up to the transposed flag. -/
theorem c4_transposed_equiv_witness :
    ValidContent "places" ["all"] sampleCols ∧
    (∃ tr tt : TypedTable,
      readGridLenient noFilter (encodeRowGrid "places" ["all"] sampleCols) =
        ([(.TABLE, .table tr)], []) ∧
      readGridLenient noFilter (encodeTransposedGrid "places" ["all"] sampleCols) =
        ([(.TABLE, .table tt)], []) ∧
      tr.transposed = false ∧ tt.transposed = true ∧
      tt.name = tr.name ∧ tt.destinations = tr.destinations ∧
      tt.columns = tr.columns) :=
  ⟨by decide, c4_transposed_equiv "places" ["all"] sampleCols (by decide)⟩

/-- C7: for every valid table — any number of data rows and columns,
including zero of either — encoding it back to the source cell-grid format
in its own physical layout and re-parsing the result yields exactly the
original TypedTable, with no Issue. -/
theorem c7_roundtrip (t : TypedTable) (h : ValidTable t) :
    readGridLenient noFilter (encodeTable t) = ([(.TABLE, .table t)], []) := by
  obtain ⟨nm, dests, tr, cols⟩ := t
  cases tr with
  | false =>
    show readGridLenient noFilter (encodeRowGrid nm dests cols) = _
    exact readGrid_encodeRow nm dests cols h
  | true =>
    show readGridLenient noFilter (encodeTransposedGrid nm dests cols) = _
    exact readGrid_encodeTransposed nm dests cols h

/-- Witness for C7 at two concrete tables: the sample two-column table and a
zero-column, zero-row transposed table, both round-tripping exactly. -/
theorem c7_roundtrip_witness :
    ValidTable ⟨"places", ["all"], false, sampleCols⟩ ∧
    ValidTable ⟨"empty", ["all"], true, []⟩ ∧
    readGridLenient noFilter (encodeTable ⟨"places", ["all"], false, sampleCols⟩) =
      ([(.TABLE, .table ⟨"places", ["all"], false, sampleCols⟩)], []) ∧
    readGridLenient noFilter (encodeTable ⟨"empty", ["all"], true, []⟩) =
      ([(.TABLE, .table ⟨"empty", ["all"], true, []⟩)], []) :=
  ⟨by decide, by decide,
   c7_roundtrip ⟨"places", ["all"], false, sampleCols⟩ (by decide),
   c7_roundtrip ⟨"empty", ["all"], true, []⟩ (by decide)⟩

end PdTable
